import Mathlib

/-!
A shallow embedding of `tt::Vector` (vector.h).

The container of `src/vector.h` is embedded as pure functions over an explicit
heap.  A heap is a list of storage blocks; a block is a list of slots, each of
which either holds a live object (`some x`) or is raw memory (`none`), together
with a flag recording whether the block has been released.  A pointer `T*` is
`Option Nat`: `none` is `nullptr`, `some b` is the base address of block `b`,
and `memory + i` is the pair of a block pointer and a slot index.

Throwing is explicit.  The heap carries two plans, consumed one entry per
call: `allocPlan` says whether the next `allocate` raises `std::bad_alloc`,
`ctorPlan` says whether the next element constructor throws (an exhausted
plan never fails).  Every operation returns an `Outcome`: normal return, an
exception leaving the function, or undefined behaviour (use of a released
block, of a slot that holds no live object, a double release).

`size_t` is modelled by `Nat` with explicit reduction modulo `2 ^ 64` where
the source arithmetic can wrap (`m_size - 1`, `m_capacity * 2`, `m_size++`).
A block is a list of slots; the number of slots of a new block is the number
of objects that fit in the `count * sizeof(T)` bytes requested, a product that
is formed in `size_t` and can wrap.

The argument of `push_back` and `emplace_back` is a reference (`Arg`): it is
read when the new element is constructed, after `checkSize()` has run.

The member function `at` is called `at_` here and `operator[]` is `subscript`.

A second set of definitions (`Layout`, `Members`) follows the member functions
past their undefined actions and keeps the data members only.
-/

namespace tt

/-- Modulus of `size_t` arithmetic (64-bit). -/
abbrev SIZE_MOD : Nat := 2 ^ 64

/-- Exceptions that leave the container's member functions. -/
inductive Exn where
  | bad_alloc
  | ctor_failure
  | out_of_range
  deriving DecidableEq

/-- Kinds of undefined behaviour the heap model detects. -/
inductive UB where
  | null_pointer
  | released_block
  | out_of_bounds
  | no_live_object
  | double_release
  deriving DecidableEq

/-- One storage block: its slots and whether `deallocate` has been called on it. -/
structure Block (T : Type) where
  slots : List (Option T)
  freed : Bool
  deriving DecidableEq

/-- The heap together with the failure plans and lifetime counters;
`elemSize` is `sizeof(T)` in bytes. -/
structure Heap (T : Type) where
  blocks : List (Block T)
  allocPlan : List Bool
  ctorPlan : List Bool
  constructs : Nat
  destroys : Nat
  elemSize : Nat
  deriving DecidableEq

/-- How a call ends: normal return, exception, or undefined behaviour; each
carries the state reached at that point. -/
inductive Outcome (σ : Type) where
  | ok (s : σ)
  | threw (e : Exn) (s : σ)
  | ub (u : UB) (s : σ)
  deriving DecidableEq

/-- How a loop of constructions ends; `threw` records the loop counter
`constructed` at the moment the constructor threw. -/
inductive LoopResult (T : Type) where
  | done (h : Heap T)
  | threw (constructed : Nat) (h : Heap T)
  | ub (u : UB) (h : Heap T)
  deriving DecidableEq

/-- Result of an element access (`operator[]`, `at`). -/
inductive Access (T : Type) where
  | ref (x : T)
  | threw (e : Exn)
  | ub (u : UB)
  deriving DecidableEq

/-- The state an outcome carries. -/
def Outcome.state {σ : Type} : Outcome σ → σ
  | .ok s => s
  | .threw _ s => s
  | .ub _ s => s

/-- The heap a loop result carries. -/
def LoopResult.heap {T : Type} : LoopResult T → Heap T
  | .done h => h
  | .threw _ h => h
  | .ub _ h => h

/-- The heap with nothing allocated and no planned failure, for elements of
4 bytes. -/
def Heap.empty (T : Type) : Heap T :=
  { blocks := [], allocPlan := [], ctorPlan := [], constructs := 0, destroys := 0,
    elemSize := 4 }

/-- Number of whole objects that fit in the block `allocate(count)` obtains:
`operator new` is asked for `count * sizeof(T)` bytes, a product formed in
`size_t` (vector.h:12), so for `count * sizeof(T) >= 2 ^ 64` the block is
smaller than `count` objects. -/
def Heap.slotsFor {T : Type} (h : Heap T) (count : Nat) : Nat :=
  ((count * h.elemSize) % SIZE_MOD) / h.elemSize

/-- Model of `Allocator::allocate(count)` (vector.h:11-13): `none` when
`operator new` throws, otherwise the address of a fresh block of raw slots,
as many as fit in `count * sizeof(T)` bytes computed in `size_t`. -/
def Heap.allocate {T : Type} (h : Heap T) (count : Nat) : Option Nat × Heap T :=
  if h.allocPlan.head? = some true then (none, { h with allocPlan := h.allocPlan.tail })
  else
    (some h.blocks.length,
      { h with allocPlan := h.allocPlan.tail,
               blocks := h.blocks ++
                 [{ slots := List.replicate (h.slotsFor count) none, freed := false }] })

/-- Number of blocks that have been allocated and not released. -/
def Heap.unreleased {T : Type} (h : Heap T) : Nat :=
  h.blocks.countP (fun blk => !blk.freed)

/-- Model of `Allocator::deallocate(memory, n)` (vector.h:15-17): `operator delete`
on `nullptr` does nothing; releasing a block twice is undefined. -/
def Heap.deallocate {T : Type} (h : Heap T) (p : Option Nat) : Outcome (Heap T) :=
  match p with
  | none => .ok h
  | some b =>
      match h.blocks[b]? with
      | none => .ub .out_of_bounds h
      | some blk =>
          if blk.freed then .ub .double_release h
          else .ok { h with blocks := h.blocks.set b { blk with freed := true } }

/-- The block a slot address `p + i` lies in, when the address is usable. -/
def Heap.slotBlock {T : Type} (h : Heap T) (p : Option Nat) (i : Nat) : Except UB (Block T) :=
  match p with
  | none => .error .null_pointer
  | some b =>
      match h.blocks[b]? with
      | none => .error .out_of_bounds
      | some blk =>
          if blk.freed then .error .released_block
          else if i < blk.slots.length then .ok blk
          else .error .out_of_bounds

/-- Reading `*(p + i)`: needs a live object in that slot. -/
def Heap.read {T : Type} (h : Heap T) (p : Option Nat) (i : Nat) : Except UB T :=
  match h.slotBlock p i with
  | .error u => .error u
  | .ok blk =>
      match blk.slots[i]? with
      | some (some x) => .ok x
      | _ => .error .no_live_object

/-- Storing a block back at address `p`. -/
def Heap.putBlock {T : Type} (h : Heap T) (p : Option Nat) (blk : Block T) : List (Block T) :=
  match p with
  | none => h.blocks
  | some b => h.blocks.set b blk

/-- Model of `Allocator::construct(p + i, x)` (vector.h:19-22): placement-new of
an object with value `x`.  The constructor throws when the plan says so, and
then the slot is left as it was. -/
def Heap.construct {T : Type} (h : Heap T) (p : Option Nat) (i : Nat) (x : T) :
    Outcome (Heap T) :=
  match h.slotBlock p i with
  | .error u => .ub u h
  | .ok blk =>
      if h.ctorPlan.head? = some true then
        .threw .ctor_failure { h with ctorPlan := h.ctorPlan.tail }
      else
        .ok { h with ctorPlan := h.ctorPlan.tail,
                     blocks := h.putBlock p { blk with slots := blk.slots.set i (some x) },
                     constructs := h.constructs + 1 }

/-- Model of `Allocator::destroy(p + i)` (vector.h:25-27): runs the destructor of
the object in the slot; undefined when the slot holds no live object. -/
def Heap.destroy {T : Type} (h : Heap T) (p : Option Nat) (i : Nat) : Outcome (Heap T) :=
  match h.slotBlock p i with
  | .error u => .ub u h
  | .ok blk =>
      match blk.slots[i]? with
      | some (some _) =>
          .ok { h with blocks := h.putBlock p { blk with slots := blk.slots.set i none },
                       destroys := h.destroys + 1 }
      | _ => .ub .no_live_object h

/-- The loop `for (i = start; i < start + n; ++i) destroy(p + i)`
(vector.h:47-49 and 96-98). -/
def destroyLoop {T : Type} (p : Option Nat) : Nat → Nat → Heap T → Outcome (Heap T)
  | 0, _, h => .ok h
  | n + 1, i, h =>
      match h.destroy p i with
      | .ok h1 => destroyLoop p n (i + 1) h1
      | other => other

/-- The loop `for (i = 0; i < n; ++i) destroy(p)` of the handler in `assign`
(vector.h:119-121): the same address `p + 0` every time. -/
def destroyFirstLoop {T : Type} (p : Option Nat) : Nat → Heap T → Outcome (Heap T)
  | 0, h => .ok h
  | n + 1, h =>
      match h.destroy p 0 with
      | .ok h1 => destroyFirstLoop p n h1
      | other => other

/-- The copy loop of `reserve` (vector.h:82-84), entered with `constructed`
and `n` iterations to go: `construct(mem + constructed, *(memory + constructed))`. -/
def copyLoop {T : Type} (memory mem : Option Nat) : Nat → Nat → Heap T → LoopResult T
  | 0, _, h => .done h
  | n + 1, constructed, h =>
      match h.read memory constructed with
      | .error u => .ub u h
      | .ok x =>
          match h.construct mem constructed x with
          | .ok h1 => copyLoop memory mem n (constructed + 1) h1
          | .threw _ h1 => .threw constructed h1
          | .ub u h1 => .ub u h1

/-- The fill loop of `assign` (vector.h:113-115):
`construct(memory + constructed, value)`. -/
def fillLoop {T : Type} (memory : Option Nat) (value : T) : Nat → Nat → Heap T → LoopResult T
  | 0, _, h => .done h
  | n + 1, constructed, h =>
      match h.construct memory constructed value with
      | .ok h1 => fillLoop memory value n (constructed + 1) h1
      | .threw _ h1 => .threw constructed h1
      | .ub u h1 => .ub u h1

/-- The argument of an append.  `push_back` takes a reference and
`emplace_back` forwards references (vector.h:145-158).  `outside x` is a
reference to an object of value `x` that lives outside the vector's storage
(`emplace_back(args...)` with such arguments constructs `x`); `own j` is a
reference to the vector's own element `j`, that is to `*(memory + j)` with
`memory` as it is when the call is made, as in `v.push_back(v[j])`.  The new
element is a copy of what the reference refers to; the referent is left as it
is. -/
inductive Arg (T : Type) where
  | outside (x : T)
  | own (j : Nat)
  deriving DecidableEq

/-- Reading the object an argument refers to, in heap `h`, when `memory` was
the vector's block at the time of the call. -/
def Arg.fetch {T : Type} (a : Arg T) (h : Heap T) (memory : Option Nat) : Except UB T :=
  match a with
  | .outside x => .ok x
  | .own j => h.read memory j

/-- The value an argument refers to when the call is made on a well-formed
vector holding `xs`. -/
def Arg.denotes {T : Type} (a : Arg T) (xs : List T) (x : T) : Prop :=
  match a with
  | .outside y => x = y
  | .own j => xs[j]? = some x

/-- The data members of `tt::Vector<T>` (vector.h:33-36), with the heap they
point into. -/
structure Vector (T : Type) where
  m_size : Nat
  m_capacity : Nat
  memory : Option Nat
  heap : Heap T
  deriving DecidableEq

namespace Vector

variable {T : Type}

/-- Lifts a heap outcome to the vector whose members are `v`. -/
def withHeap (v : Vector T) : Outcome (Heap T) → Outcome (Vector T)
  | .ok h => .ok { v with heap := h }
  | .threw e h => .threw e { v with heap := h }
  | .ub u h => .ub u { v with heap := h }

/-- Model of `Vector::clear()` (vector.h:46-51): destroys slots `0 .. m_size-1`
of `memory` and releases the block.  No data member is written. -/
def clear (v : Vector T) : Outcome (Vector T) :=
  match destroyLoop v.memory v.m_size 0 v.heap with
  | .ok h1 => v.withHeap (h1.deallocate v.memory)
  | other => v.withHeap other

/-- Model of `Vector::reserve(count)` (vector.h:70-103). -/
def reserve (v : Vector T) (count : Nat) : Outcome (Vector T) :=
  if count ≤ 0 ∨ count < v.m_capacity then .ok v
  else
    match v.heap.allocate count with
    | (none, h1) =>
        -- handler: constructed = 0, mem = nullptr
        match destroyLoop v.memory 0 0 h1 with
        | .ok h2 =>
            match h2.deallocate none with
            | .ok h3 => .threw .bad_alloc { v with heap := h3 }
            | other => v.withHeap other
        | other => v.withHeap other
    | (some mem, h1) =>
        match (if v.m_size ≠ 0 then copyLoop v.memory (some mem) v.m_size 0 h1
               else .done h1) with
        | .done h2 =>
            match (if v.m_size > 0 then clear { v with heap := h2 }
                   else .ok { v with heap := h2 }) with
            | .ok v3 => .ok { v3 with m_capacity := count, memory := some mem }
            | other => other
        | .threw constructed h2 =>
            -- handler: destroy(memory + i) for i < constructed, deallocate(mem)
            match destroyLoop v.memory constructed 0 h2 with
            | .ok h3 =>
                match h3.deallocate (some mem) with
                | .ok h4 => .threw .ctor_failure { v with heap := h4 }
                | other => v.withHeap other
            | other => v.withHeap other
        | .ub u h2 => .ub u { v with heap := h2 }

/-- Model of `Vector::checkSize()` (vector.h:40-44). -/
def checkSize (v : Vector T) : Outcome (Vector T) :=
  if v.m_size ≥ v.m_capacity then
    reserve v (if v.m_capacity = 0 then 2 else (v.m_capacity * 2) % SIZE_MOD)
  else .ok v

/-- Model of `Vector::assign(count, value)` (vector.h:105-124). -/
def assign (v : Vector T) (count : Nat) (value : T) : Outcome (Vector T) :=
  match (if v.m_size > 0 then clear v else .ok v) with
  | .ok v1 =>
      match reserve v1 count with
      | .ok v2 =>
          match fillLoop v2.memory value count 0 v2.heap with
          | .done h3 => .ok { v2 with heap := h3, m_size := count }
          | .threw constructed h3 =>
              match destroyFirstLoop v2.memory constructed h3 with
              | .ok h4 => .threw .ctor_failure { v2 with heap := h4 }
              | other => v2.withHeap other
          | .ub u h3 => .ub u { v2 with heap := h3 }
      | other => other
  | other => other

/-- Model of `Vector::size()` (vector.h:126-128). -/
def size (v : Vector T) : Nat := v.m_size

/-- Model of `Vector::capacity()` (vector.h:130-132). -/
def capacity (v : Vector T) : Nat := v.m_capacity

/-- Dereferencing `memory + index`. -/
def deref (v : Vector T) (index : Nat) : Access T :=
  match v.heap.read v.memory index with
  | .ok x => .ref x
  | .error u => .ub u

/-- Model of `Vector::operator[](index)` (vector.h:134-136). -/
def subscript (v : Vector T) (index : Nat) : Access T :=
  v.deref index

/-- Model of `Vector::at(index)` (vector.h:138-143); `m_size - 1` is unsigned. -/
def at_ (v : Vector T) (index : Nat) : Access T :=
  if index > (v.m_size + SIZE_MOD - 1) % SIZE_MOD then .threw .out_of_range
  else v.deref index

/-- Model of `Vector::emplace_back(args...)` (vector.h:153-163).  The argument
is a reference: it is read, by the constructor of the new element, only after
`checkSize()` has run, from the block `memory` pointed to when the call was
made.  The argument `memory + m_size++` is evaluated before `construct` is
entered: the slot address uses the old `m_size`, and every state from then on
has the incremented one. -/
def emplace_back (v : Vector T) (a : Arg T) : Outcome (Vector T) :=
  match checkSize v with
  | .ok v1 =>
      match a.fetch v1.heap v.memory with
      | .error u => .ub u { v1 with m_size := (v1.m_size + 1) % SIZE_MOD }
      | .ok x =>
          match v1.heap.construct v1.memory v1.m_size x with
          | .ok h3 => .ok { v1 with m_size := (v1.m_size + 1) % SIZE_MOD, heap := h3 }
          | .threw e h3 =>
              match h3.destroy v1.memory ((v1.m_size + 1) % SIZE_MOD) with
              | .ok h4 =>
                  .threw e { v1 with m_size := (v1.m_size + 1) % SIZE_MOD, heap := h4 }
              | .threw e4 h4 =>
                  .threw e4 { v1 with m_size := (v1.m_size + 1) % SIZE_MOD, heap := h4 }
              | .ub u h4 =>
                  .ub u { v1 with m_size := (v1.m_size + 1) % SIZE_MOD, heap := h4 }
          | .ub u h3 => .ub u { v1 with m_size := (v1.m_size + 1) % SIZE_MOD, heap := h3 }
  | other => other

/-- Model of `Vector::push_back(value)` (vector.h:145-151): `value` is a
reference, handed on to `emplace_back`. -/
def push_back (v : Vector T) (value : Arg T) : Outcome (Vector T) :=
  emplace_back v value

/-- Model of the destructor `~Vector()` (vector.h:54-56): it calls `clear()`. -/
def destructor (v : Vector T) : Outcome (Vector T) :=
  clear v

/-- Model of the default constructor `Vector()` (vector.h:57-58) in heap `h`. -/
def new (h : Heap T) : Vector T :=
  { m_size := 0, m_capacity := 0, memory := none, heap := h }

/-- Model of `Vector(count)` (vector.h:60-63). -/
def newSized (h : Heap T) (count : Nat) : Outcome (Vector T) :=
  reserve (new h) count

/-- Model of `Vector(count, value)` (vector.h:64-67). -/
def newFill (h : Heap T) (count : Nat) (value : T) : Outcome (Vector T) :=
  assign (new h) count value

/-- Performing `push_back` for each value of a list in order, each value held
in an object outside the vector's storage, stopping at the first call that
does not return normally. -/
def pushAll (v : Vector T) : List T → Outcome (Vector T)
  | [] => .ok v
  | x :: xs =>
      match push_back v (.outside x) with
      | .ok v1 => pushAll v1 xs
      | other => other

end Vector

end tt

namespace tt

namespace Vector

variable {T : Type}

/-- Representation invariant of spec §3: `Rep v xs` says that `v` is a
well-formed vector whose live elements are exactly `xs`, in index order.  The
block `memory` points to is not released and has `m_capacity` slots, the first
`m_size` of them live and the others raw; a null `memory` goes with capacity 0. -/
def Rep (v : Vector T) (xs : List T) : Prop :=
  v.m_size = xs.length ∧ xs.length ≤ v.m_capacity ∧ v.m_capacity < SIZE_MOD ∧
  match v.memory with
  | none => v.m_capacity = 0
  | some b =>
      v.heap.blocks[b]? =
        some { slots := xs.map some ++ List.replicate (v.m_capacity - xs.length) none,
               freed := false }

/-- The states a program can observe: those produced by a constructor that
returned, and those left by a call of `reserve`, `assign`, `push_back` or
`emplace_back` that returned or threw.  Arguments of type `size_t` are below
`SIZE_MOD`.  The last rule adds the state in which `emplace_back` is left once
its element constructor has thrown, also when the handler's `destroy` call on
the following slot is not defined. -/
inductive Reachable : Vector T → Prop where
  | ctor (h : Heap T) : Reachable (new h)
  | ctor_sized (h : Heap T) (count : Nat) (v : Vector T) :
      count < SIZE_MOD → newSized h count = .ok v → Reachable v
  | ctor_fill (h : Heap T) (count : Nat) (value : T) (v : Vector T) :
      count < SIZE_MOD → newFill h count value = .ok v → Reachable v
  | reserve_ok (v v1 : Vector T) (count : Nat) :
      Reachable v → count < SIZE_MOD → v.reserve count = .ok v1 → Reachable v1
  | reserve_threw (v v1 : Vector T) (count : Nat) (e : Exn) :
      Reachable v → count < SIZE_MOD → v.reserve count = .threw e v1 → Reachable v1
  | assign_ok (v v1 : Vector T) (count : Nat) (value : T) :
      Reachable v → count < SIZE_MOD → v.assign count value = .ok v1 → Reachable v1
  | assign_threw (v v1 : Vector T) (count : Nat) (value : T) (e : Exn) :
      Reachable v → count < SIZE_MOD → v.assign count value = .threw e v1 → Reachable v1
  | push_back_ok (v v1 : Vector T) (value : Arg T) :
      Reachable v → v.push_back value = .ok v1 → Reachable v1
  | push_back_threw (v v1 : Vector T) (value : Arg T) (e : Exn) :
      Reachable v → v.push_back value = .threw e v1 → Reachable v1
  | emplace_back_ok (v v1 : Vector T) (a : Arg T) :
      Reachable v → v.emplace_back a = .ok v1 → Reachable v1
  | emplace_back_threw (v v1 : Vector T) (a : Arg T) (e : Exn) :
      Reachable v → v.emplace_back a = .threw e v1 → Reachable v1
  | emplace_back_unwound (v v1 : Vector T) (a : Arg T) (x : T) (e : Exn) (h3 : Heap T) :
      Reachable v → v.checkSize = .ok v1 → a.fetch v1.heap v.memory = .ok x →
      v1.heap.construct v1.memory v1.m_size x = .threw e h3 →
      Reachable (v.emplace_back a).state

/-- Accounting of a run of `N` successful `push_back` calls that started on
`Vector()` in heap `h0`: before the first append nothing is allocated; after
it the capacity is a power of two `2 ^ k` that `N` fits in and, unless it is 2,
that is below `2 * N`; the growth steps have made `2 ^ k - 2` copies and
destroyed as many originals, every append has made one construction, and one
more block is unreleased than at the start. -/
def PushRun (h0 : Heap T) (v : Vector T) (N : Nat) : Prop :=
  (N = 0 → v.m_capacity = 0 ∧ v.memory = none ∧ v.heap.constructs = h0.constructs ∧
    v.heap.destroys = h0.destroys ∧ v.heap.unreleased = h0.unreleased) ∧
  (0 < N → ∃ k, 1 ≤ k ∧ v.m_capacity = 2 ^ k ∧ (k = 1 ∨ 2 ^ k < 2 * N) ∧
    v.heap.constructs + 2 = h0.constructs + N + 2 ^ k ∧
    v.heap.destroys + 2 = h0.destroys + 2 ^ k ∧
    v.heap.unreleased = h0.unreleased + 1 ∧ ∃ b, v.memory = some b)

/-- Slot counts of the blocks of a heap, in address order. -/
def shape (h : Heap T) : List Nat :=
  h.blocks.map (fun blk => blk.slots.length)

/-- The part of the representation invariant that survives failing calls:
`m_size ≤ m_capacity < SIZE_MOD`, and a non-null `memory` is the address of a
block of at most `m_capacity` slots. -/
def Bounded (v : Vector T) : Prop :=
  v.m_size ≤ v.m_capacity ∧ v.m_capacity < SIZE_MOD ∧
  ∀ b, v.memory = some b → ∃ k, (shape v.heap)[b]? = some k ∧ k ≤ v.m_capacity

end Vector

end tt

namespace tt

/-! ## The data members when undefined actions are survived

In the definitions above a call ends at its first undefined action.  The
definitions below follow the same member functions past every such action:
`destroy` and `deallocate` return whatever they are applied to, and a
constructor call goes through wherever the slot it is given lies and whatever
that slot, or the object it copies from, holds; it returns or throws as the
plan says.  What the heap holds then has no bearing on the course of a call,
so of the allocator only the failure plans and counters of its calls are
kept.  The values of `m_size` and `m_capacity` are written by the member
functions alone. -/

/-- The allocator state without the heap: the two failure plans, the number of
blocks handed out, and counters of the constructor calls entered, of the
destructor calls and of the `operator delete` calls on a non-null pointer. -/
structure Layout where
  allocPlan : List Bool
  ctorPlan : List Bool
  blocks : Nat
  ctorCalls : Nat
  destroys : Nat
  releases : Nat
  deriving DecidableEq

/-- The data members of `tt::Vector<T>` (vector.h:33-36) over a `Layout`. -/
structure Members where
  m_size : Nat
  m_capacity : Nat
  memory : Option Nat
  layout : Layout
  deriving DecidableEq

/-- How a loop of constructions ends over a `Layout`; `threw` records the loop
counter `constructed` at the moment the constructor threw. -/
inductive LayoutLoop where
  | done (l : Layout)
  | threw (constructed : Nat) (l : Layout)
  deriving DecidableEq

/-- The layout a loop result carries. -/
def LayoutLoop.layout : LayoutLoop → Layout
  | .done l => l
  | .threw _ l => l

namespace Layout

/-- Model of `Allocator::allocate(count)` (vector.h:11-13): `none` when
`operator new` throws, otherwise the address of a fresh block. -/
def allocate (l : Layout) (_count : Nat) : Option Nat × Layout :=
  if l.allocPlan.head? = some true then (none, { l with allocPlan := l.allocPlan.tail })
  else (some l.blocks, { l with allocPlan := l.allocPlan.tail, blocks := l.blocks + 1 })

/-- Model of `Allocator::deallocate(memory, n)` (vector.h:15-17), taken to return
also for a block already released. -/
def deallocate (l : Layout) (p : Option Nat) : Layout :=
  match p with
  | none => l
  | some _ => { l with releases := l.releases + 1 }

/-- Model of `Allocator::destroy(p + i)` (vector.h:25-27), taken to return
whatever the slot holds. -/
def destroy (l : Layout) (_p : Option Nat) (_i : Nat) : Layout :=
  { l with destroys := l.destroys + 1 }

/-- Model of `Allocator::construct(p + i, args...)` (vector.h:19-22): the
constructor is entered, and throws when the plan says so; `none` is the
normal return. -/
def construct (l : Layout) (_p : Option Nat) (_i : Nat) : Option Exn × Layout :=
  if l.ctorPlan.head? = some true then
    (some .ctor_failure, { l with ctorPlan := l.ctorPlan.tail, ctorCalls := l.ctorCalls + 1 })
  else (none, { l with ctorPlan := l.ctorPlan.tail, ctorCalls := l.ctorCalls + 1 })

/-- The loop `for (i = start; i < start + n; ++i) destroy(p + i)`
(vector.h:47-49 and 96-98). -/
def destroyLoop (p : Option Nat) : Nat → Nat → Layout → Layout
  | 0, _, l => l
  | n + 1, i, l => destroyLoop p n (i + 1) (l.destroy p i)

/-- The loop `for (i = 0; i < n; ++i) destroy(p)` of the handler in `assign`
(vector.h:119-121). -/
def destroyFirstLoop (p : Option Nat) : Nat → Layout → Layout
  | 0, l => l
  | n + 1, l => destroyFirstLoop p n (l.destroy p 0)

/-- The copy loop of `reserve` (vector.h:82-84) and the fill loop of `assign`
(vector.h:113-115), entered with `constructed` and `n` iterations to go:
`construct(p + constructed, ...)`. -/
def constructLoop (p : Option Nat) : Nat → Nat → Layout → LayoutLoop
  | 0, _, l => .done l
  | n + 1, constructed, l =>
      match l.construct p constructed with
      | (none, l1) => constructLoop p n (constructed + 1) l1
      | (some _, l1) => .threw constructed l1

end Layout

namespace Members

/-- Model of `Vector::clear()` (vector.h:46-51). -/
def clear (m : Members) : Members :=
  { m with layout := (Layout.destroyLoop m.memory m.m_size 0 m.layout).deallocate m.memory }

/-- Model of `Vector::reserve(count)` (vector.h:70-103). -/
def reserve (m : Members) (count : Nat) : Outcome Members :=
  if count ≤ 0 ∨ count < m.m_capacity then .ok m
  else
    match m.layout.allocate count with
    | (none, l1) =>
        -- handler: constructed = 0, mem = nullptr
        .threw .bad_alloc
          { m with layout := (Layout.destroyLoop m.memory 0 0 l1).deallocate none }
    | (some mem, l1) =>
        match (if m.m_size ≠ 0 then Layout.constructLoop (some mem) m.m_size 0 l1
               else .done l1) with
        | .done l2 =>
            .ok { (if m.m_size > 0 then clear { m with layout := l2 }
                   else { m with layout := l2 }) with
                  m_capacity := count, memory := some mem }
        | .threw constructed l2 =>
            -- handler: destroy(memory + i) for i < constructed, deallocate(mem)
            .threw .ctor_failure
              { m with layout :=
                  (Layout.destroyLoop m.memory constructed 0 l2).deallocate (some mem) }

/-- Model of `Vector::checkSize()` (vector.h:40-44). -/
def checkSize (m : Members) : Outcome Members :=
  if m.m_size ≥ m.m_capacity then
    reserve m (if m.m_capacity = 0 then 2 else (m.m_capacity * 2) % SIZE_MOD)
  else .ok m

/-- Model of `Vector::assign(count, value)` (vector.h:105-124). -/
def assign (m : Members) (count : Nat) : Outcome Members :=
  match reserve (if m.m_size > 0 then clear m else m) count with
  | .ok m2 =>
      match Layout.constructLoop m2.memory count 0 m2.layout with
      | .done l3 => .ok { m2 with layout := l3, m_size := count }
      | .threw constructed l3 =>
          .threw .ctor_failure
            { m2 with layout := Layout.destroyFirstLoop m2.memory constructed l3 }
  | other => other

/-- Model of `Vector::size()` (vector.h:126-128). -/
def size (m : Members) : Nat := m.m_size

/-- Model of `Vector::capacity()` (vector.h:130-132). -/
def capacity (m : Members) : Nat := m.m_capacity

/-- Model of `Vector::emplace_back(args...)` (vector.h:153-163); `m_size++` is
evaluated before `construct` is entered. -/
def emplace_back (m : Members) : Outcome Members :=
  match checkSize m with
  | .ok m1 =>
      match m1.layout.construct m1.memory m1.m_size with
      | (none, l3) => .ok { m1 with m_size := (m1.m_size + 1) % SIZE_MOD, layout := l3 }
      | (some e, l3) =>
          .threw e
            { m1 with m_size := (m1.m_size + 1) % SIZE_MOD,
                      layout := l3.destroy m1.memory ((m1.m_size + 1) % SIZE_MOD) }
  | other => other

/-- Model of `Vector::push_back(value)` (vector.h:145-151). -/
def push_back (m : Members) : Outcome Members :=
  emplace_back m

/-- Model of the default constructor `Vector()` (vector.h:57-58) over layout `l`. -/
def new (l : Layout) : Members :=
  { m_size := 0, m_capacity := 0, memory := none, layout := l }

/-- Model of `Vector(count)` (vector.h:60-63). -/
def newSized (l : Layout) (count : Nat) : Outcome Members :=
  reserve (new l) count

/-- Model of `Vector(count, value)` (vector.h:64-67). -/
def newFill (l : Layout) (count : Nat) : Outcome Members :=
  assign (new l) count

/-- The states a program can observe when undefined actions are survived:
those produced by a constructor that returned, and those left by a call of
`reserve`, `assign`, `push_back` or `emplace_back` that returned or threw.
Arguments of type `size_t` are below `SIZE_MOD`. -/
inductive Reachable : Members → Prop where
  | ctor (l : Layout) : Reachable (new l)
  | ctor_sized (l : Layout) (count : Nat) (m : Members) :
      count < SIZE_MOD → newSized l count = .ok m → Reachable m
  | ctor_fill (l : Layout) (count : Nat) (m : Members) :
      count < SIZE_MOD → newFill l count = .ok m → Reachable m
  | reserve_ok (m m1 : Members) (count : Nat) :
      Reachable m → count < SIZE_MOD → m.reserve count = .ok m1 → Reachable m1
  | reserve_threw (m m1 : Members) (count : Nat) (e : Exn) :
      Reachable m → count < SIZE_MOD → m.reserve count = .threw e m1 → Reachable m1
  | assign_ok (m m1 : Members) (count : Nat) :
      Reachable m → count < SIZE_MOD → m.assign count = .ok m1 → Reachable m1
  | assign_threw (m m1 : Members) (count : Nat) (e : Exn) :
      Reachable m → count < SIZE_MOD → m.assign count = .threw e m1 → Reachable m1
  | push_back_ok (m m1 : Members) :
      Reachable m → m.push_back = .ok m1 → Reachable m1
  | push_back_threw (m m1 : Members) (e : Exn) :
      Reachable m → m.push_back = .threw e m1 → Reachable m1
  | emplace_back_ok (m m1 : Members) :
      Reachable m → m.emplace_back = .ok m1 → Reachable m1
  | emplace_back_threw (m m1 : Members) (e : Exn) :
      Reachable m → m.emplace_back = .threw e m1 → Reachable m1

/-- The invariant behind `size() <= capacity()` when undefined actions are
survived: every unit of `m_size` stands for a constructor call that was
entered, `m_capacity < SIZE_MOD`, and `m_size ≤ m_capacity` unless `2 ^ 63`
constructor calls have been entered. -/
def Bounded (m : Members) : Prop :=
  m.m_size ≤ m.layout.ctorCalls ∧ m.m_capacity < SIZE_MOD ∧
  (m.m_size ≤ m.m_capacity ∨ 2 ^ 63 ≤ m.layout.ctorCalls)

end Members

end tt

namespace tt

variable {T : Type}

/-! ## Lists of slots -/

theorem slots_set_raw (l : List (Option T)) (x : Option T) (k : Nat) :
    (l ++ List.replicate (k + 1) none).set l.length x = (l ++ [x]) ++ List.replicate k none := by
  induction l with
  | nil => simp [List.replicate_succ]
  | cons a l ih => simpa using ih

theorem slots_set_live (y : T) (rest : List (Option T)) (i : Nat) :
    (List.replicate i none ++ some y :: rest).set i none =
      List.replicate (i + 1) none ++ rest := by
  induction i with
  | zero => simp
  | succ i ih => simpa [List.replicate_succ] using ih

theorem slots_get_live (xs : List T) (raw : List (Option T)) (i : Nat) (hi : i < xs.length) :
    (xs.map some ++ raw)[i]? = some (some xs[i]) := by
  rw [List.getElem?_append_left (by simpa using hi)]
  simp [hi]

theorem set_same {α : Type} (l : List α) (b : Nat) (a : α) (hb : l[b]? = some a) :
    l.set b a = l := by
  apply List.ext_getElem?
  intro j
  by_cases hj : b = j
  · subst hj
    have hlt : b < l.length := by
      rcases Nat.lt_or_ge b l.length with h | h
      · exact h
      · rw [List.getElem?_eq_none h] at hb; cases hb
    rw [List.getElem?_set_self hlt, hb]
  · rw [List.getElem?_set_ne hj]

theorem lt_of_getElem? {α : Type} (l : List α) (b : Nat) (a : α) (hb : l[b]? = some a) :
    b < l.length := by
  rcases Nat.lt_or_ge b l.length with h | h
  · exact h
  · rw [List.getElem?_eq_none h] at hb; cases hb

theorem countP_set_same {α : Type} (p : α → Bool) (l : List α) :
    ∀ (b : Nat) (a a1 : α), l[b]? = some a → p a1 = p a →
      (l.set b a1).countP p = l.countP p := by
  induction l with
  | nil => intro b a a1 hb; simp at hb
  | cons x l ih =>
      intro b a a1 hb hp
      cases b with
      | zero =>
          simp only [List.getElem?_cons_zero, Option.some.injEq] at hb
          subst hb
          simp [List.countP_cons, hp]
      | succ b =>
          simp only [List.getElem?_cons_succ] at hb
          simp [List.countP_cons, ih b a a1 hb hp]

theorem countP_set_release {α : Type} (p : α → Bool) (l : List α) :
    ∀ (b : Nat) (a a1 : α), l[b]? = some a → p a = true → p a1 = false →
      (l.set b a1).countP p + 1 = l.countP p := by
  induction l with
  | nil => intro b a a1 hb; simp at hb
  | cons x l ih =>
      intro b a a1 hb hp hp1
      cases b with
      | zero =>
          simp only [List.getElem?_cons_zero, Option.some.injEq] at hb
          subst hb
          simp [List.countP_cons, hp, hp1]
      | succ b =>
          simp only [List.getElem?_cons_succ] at hb
          have := ih b a a1 hb hp hp1
          simp only [List.set_cons_succ, List.countP_cons]
          omega

/-! ## Block sizes under `size_t` arithmetic -/

theorem slotsFor_fit (h : Heap T) (n : Nat) (hs : 0 < h.elemSize)
    (hn : n * h.elemSize < SIZE_MOD) : h.slotsFor n = n := by
  unfold Heap.slotsFor
  rw [Nat.mod_eq_of_lt hn, Nat.mul_div_cancel _ hs]

theorem slotsFor_cases (h : Heap T) (n : Nat) : h.slotsFor n = n ∨ 2 * h.slotsFor n < n := by
  by_cases hs : h.elemSize = 0
  · have h0 : h.slotsFor n = 0 := by simp [Heap.slotsFor, hs]
    rw [h0]
    omega
  · by_cases hn : n * h.elemSize < SIZE_MOD
    · exact Or.inl (slotsFor_fit h n (Nat.pos_of_ne_zero hs) hn)
    · right
      have hM : 0 < SIZE_MOD := by norm_num [SIZE_MOD]
      have hk : h.slotsFor n * h.elemSize ≤ (n * h.elemSize) % SIZE_MOD :=
        Nat.div_mul_le_self _ _
      have hr : (n * h.elemSize) % SIZE_MOD < SIZE_MOD := Nat.mod_lt _ hM
      have hdm := Nat.div_add_mod (n * h.elemSize) SIZE_MOD
      have hq : 0 < n * h.elemSize / SIZE_MOD := Nat.div_pos (Nat.le_of_not_lt hn) hM
      have hMq : SIZE_MOD ≤ SIZE_MOD * (n * h.elemSize / SIZE_MOD) :=
        Nat.le_mul_of_pos_right _ hq
      by_contra hcon
      have hle : n ≤ 2 * h.slotsFor n := Nat.le_of_not_lt hcon
      have hmul : n * h.elemSize ≤ 2 * h.slotsFor n * h.elemSize :=
        Nat.mul_le_mul_right _ hle
      rw [Nat.mul_assoc] at hmul
      omega

theorem slotsFor_le (h : Heap T) (n : Nat) : h.slotsFor n ≤ n := by
  rcases slotsFor_cases h n with h1 | h1 <;> omega

/-! ## Allocator primitives on a usable slot -/

theorem slotBlock_ok (h : Heap T) (b i : Nat) (blk : Block T)
    (hb : h.blocks[b]? = some blk) (hf : blk.freed = false) (hi : i < blk.slots.length) :
    h.slotBlock (some b) i = .ok blk := by
  simp [Heap.slotBlock, hb, hf, hi]

theorem destroyLoop_spec (b : Nat) (rest : List (Option T)) (ys : List T) :
    ∀ (i : Nat) (h : Heap T),
      h.blocks[b]? = some ⟨List.replicate i none ++ (ys.map some ++ rest), false⟩ →
      destroyLoop (some b) ys.length i h =
        .ok { h with
              blocks := h.blocks.set b ⟨List.replicate (i + ys.length) none ++ rest, false⟩,
              destroys := h.destroys + ys.length } := by
  induction ys with
  | nil =>
      intro i h hb
      simp only [List.map_nil, List.nil_append] at hb
      simp [destroyLoop, set_same _ _ _ hb]
  | cons y ys ih =>
      intro i h hb
      have hlt := lt_of_getElem? _ _ _ hb
      have hsb := slotBlock_ok h b i _ hb rfl (by simp)
      have hget : (List.replicate i (none : Option T) ++ (List.map some (y :: ys) ++ rest))[i]?
          = some (some y) := by
        rw [List.getElem?_append_right (by simp)]
        simp
      simp only [List.length_cons, destroyLoop, Heap.destroy, hsb, hget, Heap.putBlock]
      have hset : (List.replicate i (none : Option T) ++ (List.map some (y :: ys) ++ rest)).set i none
          = List.replicate (i + 1) none ++ (ys.map some ++ rest) := by
        simpa using slots_set_live y (ys.map some ++ rest) i
      rw [hset, ih (i + 1)]
      · simp [List.set_set, Nat.add_assoc, Nat.add_comm 1]
      · simp [List.getElem?_set_self hlt]

theorem construct_eq (h : Heap T) (b i : Nat) (blk : Block T) (x : T)
    (hb : h.blocks[b]? = some blk) (hf : blk.freed = false) (hi : i < blk.slots.length) :
    h.construct (some b) i x =
      if h.ctorPlan.head? = some true then
        .threw .ctor_failure { h with ctorPlan := h.ctorPlan.tail }
      else
        .ok { h with ctorPlan := h.ctorPlan.tail,
                     blocks := h.blocks.set b { blk with slots := blk.slots.set i (some x) },
                     constructs := h.constructs + 1 } := by
  simp [Heap.construct, slotBlock_ok h b i blk hb hf hi, Heap.putBlock]

theorem read_live (h : Heap T) (b i : Nat) (xs : List T) (raw : List (Option T))
    (hb : h.blocks[b]? = some ⟨xs.map some ++ raw, false⟩) (hi : i < xs.length) :
    h.read (some b) i = .ok xs[i] := by
  have hsb := slotBlock_ok h b i _ hb rfl (by simp; omega)
  simp [Heap.read, hsb, slots_get_live xs raw i hi]

theorem plan_take_succ (plan : List Bool) (n : Nat) (hp : plan.head? ≠ some true) :
    (true ∈ plan.take (n + 1) ↔ true ∈ plan.tail.take n) ∧
      plan.drop (n + 1) = plan.tail.drop n := by
  cases plan with
  | nil => simp
  | cons p rest =>
      cases p
      · simp
      · simp at hp

theorem copyLoop_spec (b m : Nat) (hbm : b ≠ m) (xs : List T) (raw : List (Option T))
    (cnt : Nat) (hcnt : xs.length ≤ cnt) :
    ∀ (n c : Nat) (h : Heap T), c + n = xs.length →
      h.blocks[b]? = some ⟨xs.map some ++ raw, false⟩ →
      h.blocks[m]? = some ⟨(xs.take c).map some ++ List.replicate (cnt - c) none, false⟩ →
      (true ∉ h.ctorPlan.take n →
        copyLoop (some b) (some m) n c h =
          .done { h with
                  blocks := h.blocks.set m
                    ⟨xs.map some ++ List.replicate (cnt - xs.length) none, false⟩,
                  ctorPlan := h.ctorPlan.drop n,
                  constructs := h.constructs + n }) ∧
      (true ∈ h.ctorPlan.take n →
        ∃ k h1, copyLoop (some b) (some m) n c h = .threw k h1) := by
  intro n
  induction n with
  | zero =>
      intro c h hc hb hm
      simp only [Nat.add_zero] at hc
      subst hc
      simp only [List.take_length] at hm
      simp [copyLoop, set_same _ _ _ hm]
  | succ n ih =>
      intro c h hc hb hm
      have hclt : c < xs.length := by omega
      have hmlt := lt_of_getElem? _ _ _ hm
      obtain ⟨y, hy⟩ : ∃ y, xs[c] = y := ⟨_, rfl⟩
      have hread := read_live h b c xs raw hb hclt
      have hcons := construct_eq h m c _ y hm rfl (by simp; omega)
      rw [hy] at hread
      by_cases hp : h.ctorPlan.head? = some true
      · constructor
        · intro hno
          exfalso
          apply hno
          cases hpl : h.ctorPlan with
          | nil => simp [hpl] at hp
          | cons p rest =>
              simp [hpl] at hp
              simp [hp]
        · intro _
          simp only [copyLoop, hread, hcons, hp, if_true]
          exact ⟨_, _, rfl⟩
      · have hplan := plan_take_succ h.ctorPlan n hp
        have hset : (List.map some (List.take c xs) ++ List.replicate (cnt - c) none).set c
            (some y) =
            List.map some (List.take (c + 1) xs) ++ List.replicate (cnt - (c + 1)) none := by
          have h1 : cnt - c = (cnt - (c + 1)) + 1 := by omega
          have h2 : (List.map some (List.take c xs)).length = c := by simp; omega
          have h3 := slots_set_raw (List.map some (List.take c xs)) (some y) (cnt - (c + 1))
          have h4 : List.map some (List.take (c + 1) xs) =
              List.map some (List.take c xs) ++ [some y] := by
            rw [← List.take_concat_get xs c hclt, List.concat_eq_append, List.map_append, hy]
            rfl
          rw [h2, ← h1] at h3
          rw [h3, h4]
        have hih := ih (c + 1)
          { h with ctorPlan := h.ctorPlan.tail,
                   blocks := h.blocks.set m
                     ⟨(List.map some (List.take c xs) ++ List.replicate (cnt - c) none).set c
                        (some y), false⟩,
                   constructs := h.constructs + 1 }
          (by omega)
          (by simp only; rw [List.getElem?_set_ne (Ne.symm hbm)]; exact hb)
          (by simp only; rw [List.getElem?_set_self hmlt, hset])
        simp only [copyLoop, hread, hcons, hp, if_false]
        constructor
        · intro hno
          rw [hih.1 (by simpa [hplan.1] using hno)]
          simp only [List.set_set, hplan.2, Nat.add_assoc, Nat.add_comm 1 n]
        · intro hyes
          exact hih.2 (by simpa [hplan.1] using hyes)

namespace Vector

/-! ## Block sizes are stable -/

theorem map_set_same {α β : Type} (f : α → β) (l : List α) (b : Nat) (a a1 : α)
    (hb : l[b]? = some a) (hf : f a1 = f a) : (l.set b a1).map f = l.map f := by
  rw [List.map_set, hf]
  exact set_same _ _ _ (by simp [hb])

theorem shape_putBlock (h : Heap T) (p : Option Nat) (i : Nat) (blk blk1 : Block T)
    (hsb : h.slotBlock p i = .ok blk) (hlen : blk1.slots.length = blk.slots.length) :
    (h.putBlock p blk1).map (fun b => b.slots.length) = shape h := by
  cases p with
  | none => simp [Heap.slotBlock] at hsb
  | some b =>
      cases hb : h.blocks[b]? with
      | none => simp [Heap.slotBlock, hb] at hsb
      | some blk0 =>
          simp only [Heap.slotBlock, hb] at hsb
          split at hsb
          · cases hsb
          · split at hsb
            · cases hsb
              exact map_set_same _ _ _ _ _ hb hlen
            · cases hsb

theorem slotBlock_shape (h : Heap T) (p : Option Nat) (i : Nat) (blk : Block T)
    (hsb : h.slotBlock p i = .ok blk) :
    ∃ b, p = some b ∧ ∃ n, (shape h)[b]? = some n ∧ i < n := by
  cases p with
  | none => simp [Heap.slotBlock] at hsb
  | some b =>
      cases hb : h.blocks[b]? with
      | none => simp [Heap.slotBlock, hb] at hsb
      | some blk0 =>
          simp only [Heap.slotBlock, hb] at hsb
          split at hsb
          · cases hsb
          · split at hsb
            · rename_i hi
              exact ⟨b, rfl, blk0.slots.length, by simp [shape, hb], hi⟩
            · cases hsb

theorem shape_construct (h : Heap T) (p : Option Nat) (i : Nat) (x : T) :
    shape (h.construct p i x).state = shape h := by
  unfold Heap.construct
  cases hsb : h.slotBlock p i with
  | error u => rfl
  | ok blk =>
      simp only
      split
      · rfl
      · exact shape_putBlock h p i blk _ hsb (by simp)

theorem shape_destroy (h : Heap T) (p : Option Nat) (i : Nat) :
    shape (h.destroy p i).state = shape h := by
  unfold Heap.destroy
  cases hsb : h.slotBlock p i with
  | error u => rfl
  | ok blk =>
      simp only
      split
      · exact shape_putBlock h p i blk _ hsb (by simp)
      · rfl

theorem shape_deallocate (h : Heap T) (p : Option Nat) :
    shape (h.deallocate p).state = shape h := by
  unfold Heap.deallocate
  cases p with
  | none => rfl
  | some b =>
      simp only
      cases hb : h.blocks[b]? with
      | none => rfl
      | some blk =>
          simp only
          split
          · rfl
          · exact map_set_same _ _ _ _ _ hb rfl

theorem shape_destroyLoop (p : Option Nat) (n : Nat) :
    ∀ (i : Nat) (h : Heap T), shape (destroyLoop p n i h).state = shape h := by
  induction n with
  | zero => intro i h; rfl
  | succ n ih =>
      intro i h
      have hd := shape_destroy h p i
      unfold destroyLoop
      cases hr : h.destroy p i with
      | ok h1 =>
          rw [hr] at hd
          simp only
          rw [ih (i + 1) h1]
          exact hd
      | threw e h1 => rw [hr] at hd; exact hd
      | ub u h1 => rw [hr] at hd; exact hd

theorem shape_destroyFirstLoop (p : Option Nat) (n : Nat) :
    ∀ (h : Heap T), shape (destroyFirstLoop p n h).state = shape h := by
  induction n with
  | zero => intro h; rfl
  | succ n ih =>
      intro h
      have hd := shape_destroy h p 0
      unfold destroyFirstLoop
      cases hr : h.destroy p 0 with
      | ok h1 =>
          rw [hr] at hd
          simp only
          rw [ih h1]
          exact hd
      | threw e h1 => rw [hr] at hd; exact hd
      | ub u h1 => rw [hr] at hd; exact hd

theorem shape_copyLoop (memory mem : Option Nat) (n : Nat) :
    ∀ (c : Nat) (h : Heap T), shape (copyLoop memory mem n c h).heap = shape h := by
  induction n with
  | zero => intro c h; rfl
  | succ n ih =>
      intro c h
      unfold copyLoop
      cases hr : h.read memory c with
      | error u => rfl
      | ok x =>
          simp only
          have hc := shape_construct h mem c x
          cases hk : h.construct mem c x with
          | ok h1 =>
              rw [hk] at hc
              simp only
              rw [ih (c + 1) h1]
              exact hc
          | threw e h1 => rw [hk] at hc; exact hc
          | ub u h1 => rw [hk] at hc; exact hc

theorem shape_fillLoop (memory : Option Nat) (value : T) (n : Nat) :
    ∀ (c : Nat) (h : Heap T), shape (fillLoop memory value n c h).heap = shape h := by
  induction n with
  | zero => intro c h; rfl
  | succ n ih =>
      intro c h
      unfold fillLoop
      have hc := shape_construct h memory c value
      cases hk : h.construct memory c value with
      | ok h1 =>
          rw [hk] at hc
          simp only
          rw [ih (c + 1) h1]
          exact hc
      | threw e h1 => rw [hk] at hc; exact hc
      | ub u h1 => rw [hk] at hc; exact hc

theorem construct_slot (h h1 : Heap T) (p : Option Nat) (i : Nat) (x : T)
    (hc : h.construct p i x = .ok h1 ∨ ∃ e, h.construct p i x = .threw e h1) :
    ∃ b, p = some b ∧ ∃ n, (shape h)[b]? = some n ∧ i < n := by
  cases hsb : h.slotBlock p i with
  | ok blk => exact slotBlock_shape h p i blk hsb
  | error u =>
      exfalso
      rcases hc with hc | ⟨e, hc⟩ <;> simp [Heap.construct, hsb] at hc

theorem construct_ok_shape (h h1 : Heap T) (p : Option Nat) (i : Nat) (x : T)
    (hc : h.construct p i x = .ok h1) : shape h1 = shape h := by
  have := shape_construct h p i x
  rw [hc] at this
  exact this

theorem copyLoop_room (memory mem : Option Nat) (n : Nat) :
    ∀ (c : Nat) (h h1 : Heap T), 0 < n → copyLoop memory mem n c h = .done h1 →
      ∃ b k, mem = some b ∧ (shape h)[b]? = some k ∧ c + n ≤ k := by
  induction n with
  | zero => intro c h h1 hpos; omega
  | succ n ih =>
      intro c h h1 _ hd
      unfold copyLoop at hd
      cases hr : h.read memory c with
      | error u => simp [hr] at hd
      | ok x =>
          simp only [hr] at hd
          cases hk : h.construct mem c x with
          | threw e h2 => simp [hk] at hd
          | ub u h2 => simp [hk] at hd
          | ok h2 =>
              simp only [hk] at hd
              obtain ⟨b, hb, k, hkk, hlt⟩ := construct_slot h h2 mem c x (Or.inl hk)
              rcases Nat.eq_zero_or_pos n with hz | hp
              · exact ⟨b, k, hb, hkk, by omega⟩
              · obtain ⟨b2, k2, hb2, hk2, hle⟩ := ih (c + 1) h2 h1 hp hd
                rw [construct_ok_shape h h2 mem c x hk] at hk2
                exact ⟨b2, k2, hb2, hk2, by omega⟩

theorem fillLoop_room (memory : Option Nat) (value : T) (n : Nat) :
    ∀ (c : Nat) (h h1 : Heap T), 0 < n → fillLoop memory value n c h = .done h1 →
      ∃ b k, memory = some b ∧ (shape h)[b]? = some k ∧ c + n ≤ k := by
  induction n with
  | zero => intro c h h1 hpos; omega
  | succ n ih =>
      intro c h h1 _ hd
      unfold fillLoop at hd
      cases hk : h.construct memory c value with
      | threw e h2 => simp [hk] at hd
      | ub u h2 => simp [hk] at hd
      | ok h2 =>
          simp only [hk] at hd
          obtain ⟨b, hb, k, hkk, hlt⟩ := construct_slot h h2 memory c value (Or.inl hk)
          rcases Nat.eq_zero_or_pos n with hz | hp
          · exact ⟨b, k, hb, hkk, by omega⟩
          · obtain ⟨b2, k2, hb2, hk2, hle⟩ := ih (c + 1) h2 h1 hp hd
            rw [construct_ok_shape h h2 memory c value hk] at hk2
            exact ⟨b2, k2, hb2, hk2, by omega⟩

theorem read_raw_error (h : Heap T) (b k j : Nat) (f : Bool)
    (hb : h.blocks[b]? = some ⟨List.replicate k none, f⟩) :
    ∃ u, h.read (some b) j = .error u := by
  unfold Heap.read Heap.slotBlock
  simp only [hb, List.length_replicate]
  cases f with
  | true => exact ⟨_, rfl⟩
  | false =>
      simp only [Bool.false_eq_true, if_false]
      by_cases hj : j < k
      · simp only [hj, if_true]
        have hg : (List.replicate k (none : Option T))[j]? = some none := by
          rw [List.getElem?_replicate]
          simp [hj]
        rw [hg]
        exact ⟨_, rfl⟩
      · simp only [hj, if_false]
        exact ⟨_, rfl⟩

theorem read_released_error (h : Heap T) (b j : Nat) (slots : List (Option T))
    (hb : h.blocks[b]? = some ⟨slots, true⟩) :
    ∃ u, h.read (some b) j = .error u := by
  unfold Heap.read Heap.slotBlock
  simp [hb]

theorem read_null_error (h : Heap T) (j : Nat) : ∃ u, h.read none j = .error u := by
  unfold Heap.read Heap.slotBlock
  exact ⟨_, rfl⟩

theorem read_rep_inv (h : Heap T) (b j k : Nat) (xs : List T) (x : T)
    (hb : h.blocks[b]? = some ⟨xs.map some ++ List.replicate k none, false⟩)
    (hr : h.read (some b) j = .ok x) : xs[j]? = some x := by
  rcases Nat.lt_or_ge j xs.length with hj | hj
  · rw [read_live h b j xs _ hb hj] at hr
    cases hr
    simp [hj]
  · exfalso
    unfold Heap.read Heap.slotBlock at hr
    simp only [hb, Bool.false_eq_true, if_false, List.length_append, List.length_map,
      List.length_replicate] at hr
    by_cases hlt : j < xs.length + k
    · simp only [hlt, if_true] at hr
      have hget : (List.map some xs ++ List.replicate k (none : Option T))[j]? = some none := by
        rw [List.getElem?_append_right (by simpa using hj), List.getElem?_replicate]
        simp only [List.length_map]
        rw [if_pos (by omega)]
      rw [hget] at hr
      cases hr
    · simp only [hlt, if_false] at hr
      cases hr

/-! ## What a call can change in the data members -/

theorem withHeap_state (v : Vector T) (o : Outcome (Heap T)) :
    (v.withHeap o).state = { v with heap := o.state } := by
  cases o <;> rfl

theorem clear_frame (v : Vector T) :
    (clear v).state.m_size = v.m_size ∧ (clear v).state.m_capacity = v.m_capacity ∧
      (clear v).state.memory = v.memory ∧ shape (clear v).state.heap = shape v.heap := by
  unfold clear
  have hd := shape_destroyLoop v.memory v.m_size 0 v.heap
  cases hr : destroyLoop v.memory v.m_size 0 v.heap with
  | ok h1 =>
      rw [hr] at hd
      rw [withHeap_state]
      exact ⟨rfl, rfl, rfl, (shape_deallocate h1 v.memory).trans hd⟩
  | threw e h1 => rw [hr] at hd; exact ⟨rfl, rfl, rfl, hd⟩
  | ub u h1 => rw [hr] at hd; exact ⟨rfl, rfl, rfl, hd⟩

theorem reserve_frame (v : Vector T) (n : Nat) :
    (v.reserve n).state.m_size = v.m_size ∧
    (((v.reserve n).state.m_capacity = v.m_capacity ∧ (v.reserve n).state.memory = v.memory ∧
        (∃ t, shape (v.reserve n).state.heap = shape v.heap ++ t) ∧
        ((∃ v1, v.reserve n = .ok v1) → n = 0 ∨ n < v.m_capacity)) ∨
      (v.m_capacity ≤ n ∧ (v.reserve n).state.m_capacity = n ∧
        (v.reserve n).state.memory = some v.heap.blocks.length ∧
        shape (v.reserve n).state.heap = shape v.heap ++ [v.heap.slotsFor n])) := by
  unfold reserve
  by_cases hguard : n ≤ 0 ∨ n < v.m_capacity
  · rw [if_pos hguard]
    exact ⟨rfl, Or.inl ⟨rfl, rfl, ⟨[], by simp [Outcome.state]⟩, fun _ => by omega⟩⟩
  · simp only [hguard, if_false]
    by_cases halloc : v.heap.allocPlan.head? = some true
    · simp only [Heap.allocate]
      rw [if_pos halloc]
      exact ⟨rfl, Or.inl ⟨rfl, rfl, ⟨[], by rw [List.append_nil]; rfl⟩,
        fun ⟨v1, h⟩ => by cases h⟩⟩
    · simp only [Heap.allocate, halloc, if_false]
      obtain ⟨h1, hh1⟩ : ∃ h1 : Heap T, h1 = { v.heap with
          allocPlan := v.heap.allocPlan.tail,
          blocks := v.heap.blocks ++
            [{ slots := List.replicate (v.heap.slotsFor n) none, freed := false }] } :=
        ⟨_, rfl⟩
      have hs1 : shape h1 = shape v.heap ++ [v.heap.slotsFor n] := by rw [hh1]; simp [shape]
      rw [← hh1]
      obtain ⟨L, hL⟩ : ∃ L, L = (if v.m_size ≠ 0 then
          copyLoop v.memory (some v.heap.blocks.length) v.m_size 0 h1 else .done h1) := ⟨_, rfl⟩
      have hsL : shape L.heap = shape v.heap ++ [v.heap.slotsFor n] := by
        rw [hL]
        split
        · rw [shape_copyLoop]; exact hs1
        · exact hs1
      rw [← hL]
      cases L with
      | done h2 =>
          simp only [LoopResult.heap] at hsL
          simp only
          obtain ⟨C, hC⟩ : ∃ C, C = (if v.m_size > 0 then clear { v with heap := h2 }
              else .ok { v with heap := h2 }) := ⟨_, rfl⟩
          have hfC : C.state.m_size = v.m_size ∧ C.state.m_capacity = v.m_capacity ∧
              C.state.memory = v.memory ∧ shape C.state.heap = shape v.heap ++ [v.heap.slotsFor n] := by
            rw [hC]
            split
            · obtain ⟨a, b, c, d⟩ := clear_frame { v with heap := h2 }
              exact ⟨a, b, c, d.trans hsL⟩
            · exact ⟨rfl, rfl, rfl, hsL⟩
          rw [← hC]
          cases C with
          | ok v3 =>
              simp only [Outcome.state] at hfC
              exact ⟨hfC.1, Or.inr ⟨by omega, rfl, rfl, hfC.2.2.2⟩⟩
          | threw e v3 =>
              simp only [Outcome.state] at hfC ⊢
              exact ⟨hfC.1, Or.inl ⟨hfC.2.1, hfC.2.2.1, ⟨_, hfC.2.2.2⟩,
                fun ⟨v1, h⟩ => by cases h⟩⟩
          | ub u v3 =>
              simp only [Outcome.state] at hfC ⊢
              exact ⟨hfC.1, Or.inl ⟨hfC.2.1, hfC.2.2.1, ⟨_, hfC.2.2.2⟩,
                fun ⟨v1, h⟩ => by cases h⟩⟩
      | threw k h2 =>
          simp only [LoopResult.heap] at hsL
          simp only
          have hd := shape_destroyLoop v.memory k 0 h2
          cases hr : destroyLoop v.memory k 0 h2 with
          | ok h3 =>
              rw [hr] at hd
              simp only [Outcome.state] at hd
              simp only
              have hda := shape_deallocate h3 (some v.heap.blocks.length)
              cases hr2 : h3.deallocate (some v.heap.blocks.length) with
              | ok h4 =>
                  rw [hr2] at hda
                  exact ⟨rfl, Or.inl ⟨rfl, rfl, ⟨_, (hda.trans hd).trans hsL⟩,
                    fun ⟨v1, h⟩ => by cases h⟩⟩
              | threw e h4 =>
                  rw [hr2] at hda
                  exact ⟨rfl, Or.inl ⟨rfl, rfl, ⟨_, (hda.trans hd).trans hsL⟩,
                    fun ⟨v1, h⟩ => by cases h⟩⟩
              | ub u h4 =>
                  rw [hr2] at hda
                  exact ⟨rfl, Or.inl ⟨rfl, rfl, ⟨_, (hda.trans hd).trans hsL⟩,
                    fun ⟨v1, h⟩ => by cases h⟩⟩
          | threw e h3 =>
              rw [hr] at hd
              exact ⟨rfl, Or.inl ⟨rfl, rfl, ⟨_, hd.trans hsL⟩, fun ⟨v1, h⟩ => by cases h⟩⟩
          | ub u h3 =>
              rw [hr] at hd
              exact ⟨rfl, Or.inl ⟨rfl, rfl, ⟨_, hd.trans hsL⟩, fun ⟨v1, h⟩ => by cases h⟩⟩
      | ub u h2 =>
          simp only [LoopResult.heap] at hsL
          exact ⟨rfl, Or.inl ⟨rfl, rfl, ⟨_, hsL⟩, fun ⟨v1, h⟩ => by cases h⟩⟩

/-! ## `reserve` on a well-formed vector -/

theorem rep_memory_none (v : Vector T) (xs : List T) (hrep : Rep v xs) (hm : v.memory = none) :
    xs = [] ∧ v.m_size = 0 ∧ v.m_capacity = 0 := by
  obtain ⟨hsize, hle, _, hmem⟩ := hrep
  rw [hm] at hmem
  simp only at hmem
  have hx : xs.length = 0 := by omega
  exact ⟨List.length_eq_zero.mp hx, by omega, hmem⟩

theorem reserve_ok_room (v : Vector T) (xs : List T) (n : Nat) (hrep : Rep v xs)
    (hpos : 0 < n) (hcap : v.m_capacity ≤ n)
    (halloc : v.heap.allocPlan.head? ≠ some true)
    (hctor : true ∉ v.heap.ctorPlan.take xs.length)
    (hroom : xs.length ≤ v.heap.slotsFor n) :
    ∃ v1, v.reserve n = .ok v1 ∧ v1.m_size = v.m_size ∧ v1.m_capacity = n ∧
      v1.memory = some v.heap.blocks.length ∧
      v1.heap.blocks[v.heap.blocks.length]? =
        some ⟨xs.map some ++ List.replicate (v.heap.slotsFor n - xs.length) none, false⟩ ∧
      v1.heap.allocPlan = v.heap.allocPlan.tail ∧
      v1.heap.ctorPlan = v.heap.ctorPlan.drop xs.length ∧
      v1.heap.elemSize = v.heap.elemSize ∧
      v1.heap.constructs = v.heap.constructs + xs.length ∧
      v1.heap.destroys = v.heap.destroys + xs.length ∧
      v1.heap.unreleased = v.heap.unreleased + (if xs.length = 0 then 1 else 0) ∧
      ∀ j, ∃ u, v1.heap.read v.memory j = .error u := by
  have hguard : ¬(n ≤ 0 ∨ n < v.m_capacity) := by omega
  by_cases hz : v.m_size = 0
  · have hx : xs = [] := List.length_eq_zero.mp (by rw [← hrep.1]; exact hz)
    subst hx
    simp only [reserve, hguard, if_false, Heap.allocate, halloc, hz, ne_eq, not_true_eq_false,
      gt_iff_lt, Nat.lt_irrefl]
    refine ⟨_, rfl, rfl, rfl, rfl, by simp, rfl, by simp, rfl, rfl, rfl,
      by simp [Heap.unreleased], ?_⟩
    intro j
    cases hm : v.memory with
    | none => exact read_null_error _ j
    | some b =>
        have hmem := hrep.2.2.2
        rw [hm] at hmem
        simp only [List.map_nil, List.nil_append] at hmem
        have hb_lt := lt_of_getElem? _ _ _ hmem
        exact read_raw_error _ b _ j false
          (by simp only; rw [List.getElem?_append_left hb_lt]; exact hmem)
  · obtain ⟨hsize, hle, hlt, hmem⟩ := hrep
    cases hm : v.memory with
    | none =>
        exfalso
        rw [hm] at hmem
        simp only at hmem
        omega
    | some b =>
        rw [hm] at hmem
        simp only at hmem
        have hb_lt := lt_of_getElem? _ _ _ hmem
        have hne : b ≠ v.heap.blocks.length := Nat.ne_of_lt hb_lt
        have hcopy := (copyLoop_spec b v.heap.blocks.length hne xs
          (List.replicate (v.m_capacity - xs.length) none) (v.heap.slotsFor n) hroom
          xs.length 0
          { v.heap with
            allocPlan := v.heap.allocPlan.tail,
            blocks := v.heap.blocks ++
              [{ slots := List.replicate (v.heap.slotsFor n) none, freed := false }] }
          (by simp)
          (by simp only; rw [List.getElem?_append_left hb_lt]; exact hmem)
          (by simp)).1 hctor
        have hold : ((v.heap.blocks ++
            [(⟨List.replicate (v.heap.slotsFor n) none, false⟩ : Block T)]).set
            v.heap.blocks.length
            ⟨xs.map some ++ List.replicate (v.heap.slotsFor n - xs.length) none, false⟩)[b]? =
            some ⟨xs.map some ++ List.replicate (v.m_capacity - xs.length) none, false⟩ := by
          rw [List.getElem?_set_ne (Ne.symm hne), List.getElem?_append_left hb_lt]
          exact hmem
        have hdl := destroyLoop_spec b (List.replicate (v.m_capacity - xs.length) none) xs 0
          ({ v.heap with
            allocPlan := v.heap.allocPlan.tail,
            blocks := (v.heap.blocks ++
              [(⟨List.replicate (v.heap.slotsFor n) none, false⟩ : Block T)]).set
              v.heap.blocks.length
              ⟨xs.map some ++ List.replicate (v.heap.slotsFor n - xs.length) none, false⟩,
            ctorPlan := v.heap.ctorPlan.drop xs.length,
            constructs := v.heap.constructs + xs.length } : Heap T)
          (by simpa using hold)
        have hz1 : ¬ xs.length = 0 := by omega
        have hz2 : xs.length > 0 := by omega
        simp only [reserve, hguard, if_false, Heap.allocate, halloc, hm, hsize, hz1, hz2,
          ne_eq, not_false_eq_true, if_true, hcopy, clear, hdl, withHeap, Heap.deallocate]
        have hlen : b < ((v.heap.blocks ++
            [(⟨List.replicate (v.heap.slotsFor n) none, false⟩ : Block T)]).set
            v.heap.blocks.length
            ⟨xs.map some ++ List.replicate (v.heap.slotsFor n - xs.length) none,
              false⟩).length := by
          simp; omega
        simp only [List.getElem?_set_self hlen, Bool.false_eq_true, if_false]
        refine ⟨_, rfl, rfl, rfl, rfl, ?_, rfl, rfl, rfl, rfl, rfl, ?_, ?_⟩
        · simp only
          rw [List.getElem?_set_ne hne, List.getElem?_set_ne hne,
            List.getElem?_set_self (by simp)]
        · simp only [Heap.unreleased, List.set_set, Nat.add_zero]
          have h1 := countP_set_release (fun blk : Block T => !blk.freed) _ b _
            ⟨List.replicate (0 + xs.length) none ++
              List.replicate (v.m_capacity - xs.length) none, true⟩ hold rfl rfl
          have h2 := countP_set_same (fun blk : Block T => !blk.freed)
            (v.heap.blocks ++ [(⟨List.replicate (v.heap.slotsFor n) none, false⟩ : Block T)])
            v.heap.blocks.length
            ⟨List.replicate (v.heap.slotsFor n) none, false⟩
            ⟨xs.map some ++ List.replicate (v.heap.slotsFor n - xs.length) none, false⟩
            (by simp) rfl
          rw [h2] at h1
          simp only [List.countP_append, List.countP_cons, List.countP_nil] at h1
          simp only [Bool.not_false, if_true] at h1
          omega
        · intro j
          exact read_released_error _ b j _
            (by simp only [List.set_set]; rw [List.getElem?_set_self hlen])

theorem reserve_ok (v : Vector T) (xs : List T) (n : Nat) (hrep : Rep v xs)
    (hpos : 0 < n) (hcap : v.m_capacity ≤ n) (hn : n < SIZE_MOD)
    (hfit : v.heap.slotsFor n = n)
    (halloc : v.heap.allocPlan.head? ≠ some true)
    (hctor : true ∉ v.heap.ctorPlan.take xs.length) :
    ∃ v1, v.reserve n = .ok v1 ∧ Rep v1 xs ∧ v1.m_capacity = n ∧
      v1.memory = some v.heap.blocks.length ∧
      v1.heap.allocPlan = v.heap.allocPlan.tail ∧
      v1.heap.ctorPlan = v.heap.ctorPlan.drop xs.length ∧
      v1.heap.elemSize = v.heap.elemSize := by
  have hle : xs.length ≤ n := Nat.le_trans hrep.2.1 hcap
  obtain ⟨v1, h1, hs, hc, hm, hb, ha, hp, he, _⟩ :=
    reserve_ok_room v xs n hrep hpos hcap halloc hctor (by rw [hfit]; exact hle)
  refine ⟨v1, h1, ⟨hs.trans hrep.1, by omega, by omega, ?_⟩, hc, hm, ha, hp, he⟩
  rw [hm]
  simp only
  rw [hb, hfit, hc]

theorem reserve_ok_counts (v : Vector T) (xs : List T) (n : Nat) (hrep : Rep v xs)
    (hpos : 0 < n) (hcap : v.m_capacity ≤ n)
    (hfit : v.heap.slotsFor n = n)
    (halloc : v.heap.allocPlan.head? ≠ some true)
    (hctor : true ∉ v.heap.ctorPlan.take xs.length) :
    ∃ v1, v.reserve n = .ok v1 ∧
      v1.heap.constructs = v.heap.constructs + xs.length ∧
      v1.heap.destroys = v.heap.destroys + xs.length ∧
      v1.heap.unreleased = v.heap.unreleased + (if xs.length = 0 then 1 else 0) ∧
      ∀ j, ∃ u, v1.heap.read v.memory j = .error u := by
  have hle : xs.length ≤ n := Nat.le_trans hrep.2.1 hcap
  obtain ⟨v1, h1, _, _, _, _, _, _, _, hk, hd, hu, hr⟩ :=
    reserve_ok_room v xs n hrep hpos hcap halloc hctor (by rw [hfit]; exact hle)
  exact ⟨v1, h1, hk, hd, hu, hr⟩

theorem withHeap_ne_ok (v v1 : Vector T) (o : Outcome (Heap T))
    (ho : ∀ h, o ≠ .ok h) : v.withHeap o ≠ .ok v1 := by
  cases o with
  | ok h => exact absurd rfl (ho h)
  | threw e h => simp [withHeap]
  | ub u h => simp [withHeap]

theorem reserve_not_ok (v : Vector T) (xs : List T) (n : Nat) (hrep : Rep v xs)
    (hpos : 0 < n) (hcap : v.m_capacity ≤ n)
    (hfail : v.heap.allocPlan.head? = some true ∨ true ∈ v.heap.ctorPlan.take xs.length ∨
      v.heap.slotsFor n < xs.length)
    (v1 : Vector T) : v.reserve n ≠ .ok v1 := by
  have hguard : ¬(n ≤ 0 ∨ n < v.m_capacity) := by omega
  by_cases halloc : v.heap.allocPlan.head? = some true
  · simp only [reserve, hguard, if_false, Heap.allocate, halloc, if_true, destroyLoop,
      Heap.deallocate]
    simp
  · obtain ⟨hsize, hle, hlt, hmem⟩ := hrep
    have hz : v.m_size ≠ 0 := by
      intro hz
      rw [hsize] at hz
      rcases hfail with h | h | h
      · exact halloc h
      · rw [hz] at h
        simp at h
      · omega
    have hz1 : ¬ xs.length = 0 := by omega
    obtain ⟨h1, hh1⟩ : ∃ h1 : Heap T, h1 = { v.heap with
        allocPlan := v.heap.allocPlan.tail,
        blocks := v.heap.blocks ++
          [{ slots := List.replicate (v.heap.slotsFor n) none, freed := false }] } :=
      ⟨_, rfl⟩
    have hnd : ∀ h2, copyLoop v.memory (some v.heap.blocks.length) xs.length 0 h1 ≠
        .done h2 := by
      intro h2 hd
      by_cases hroom : xs.length ≤ v.heap.slotsFor n
      · have hctor : true ∈ v.heap.ctorPlan.take xs.length := by
          rcases hfail with h | h | h
          · exact absurd h halloc
          · exact h
          · omega
        cases hm : v.memory with
        | none =>
            rw [hm] at hmem
            simp only at hmem
            omega
        | some b =>
            rw [hm] at hmem hd
            simp only at hmem
            have hb_lt := lt_of_getElem? _ _ _ hmem
            have hne : b ≠ v.heap.blocks.length := Nat.ne_of_lt hb_lt
            obtain ⟨k, h3, hcopy⟩ := (copyLoop_spec b v.heap.blocks.length hne xs
              (List.replicate (v.m_capacity - xs.length) none) (v.heap.slotsFor n) hroom
              xs.length 0 h1 (by simp)
              (by rw [hh1]; simp only; rw [List.getElem?_append_left hb_lt]; exact hmem)
              (by rw [hh1]; simp)).2 (by rw [hh1]; exact hctor)
            rw [hcopy] at hd
            cases hd
      · obtain ⟨b, k, hb, hk, hle2⟩ := copyLoop_room v.memory (some v.heap.blocks.length)
          xs.length 0 h1 h2 (by omega) hd
        cases hb
        have hsh : (shape h1)[v.heap.blocks.length]? = some (v.heap.slotsFor n) := by
          rw [hh1]
          simp [shape]
        rw [hsh] at hk
        cases hk
        omega
    simp only [reserve, hguard, if_false, Heap.allocate, halloc, hsize, hz1,
      ne_eq, not_false_eq_true, if_true]
    rw [← hh1]
    cases hcl : copyLoop v.memory (some v.heap.blocks.length) xs.length 0 h1 with
    | done h2 => exact absurd hcl (hnd h2)
    | ub u h2 => simp
    | threw k h2 =>
        simp only
        cases hd : destroyLoop v.memory k 0 h2 with
        | ok h3 =>
            simp only
            cases hd2 : h3.deallocate (some v.heap.blocks.length) with
            | ok h4 => simp
            | threw e h4 => simp [withHeap]
            | ub u h4 => simp [withHeap]
        | threw e h3 => simp [withHeap]
        | ub u h3 => simp [withHeap]

theorem reserve_rep (v v1 : Vector T) (xs : List T) (n : Nat) (hrep : Rep v xs)
    (hn : n < SIZE_MOD)
    (hfit : ¬(n ≤ 0 ∨ n < v.m_capacity) → v.heap.slotsFor n = n)
    (hres : v.reserve n = .ok v1) :
    Rep v1 xs ∧ (v1 = v ∨ v1.m_capacity = n) := by
  by_cases hguard : n ≤ 0 ∨ n < v.m_capacity
  · simp only [reserve, hguard, if_true, Outcome.ok.injEq] at hres
    subst hres
    exact ⟨hrep, Or.inl rfl⟩
  · by_cases hfail : v.heap.allocPlan.head? = some true ∨ true ∈ v.heap.ctorPlan.take xs.length
    · exact absurd hres (reserve_not_ok v xs n hrep (by omega) (by omega)
        (by rcases hfail with h | h; exact Or.inl h; exact Or.inr (Or.inl h)) v1)
    · obtain ⟨v2, h2, hrep2, hcap2, _⟩ := reserve_ok v xs n hrep (by omega) (by omega) hn
        (hfit hguard) (fun h => hfail (Or.inl h)) (fun h => hfail (Or.inr h))
      rw [h2] at hres
      simp only [Outcome.ok.injEq] at hres
      subst hres
      exact ⟨hrep2, Or.inr hcap2⟩

/-! ## Appending to a well-formed vector -/

theorem growth_lt_mod (c : Nat) : (if c = 0 then 2 else (c * 2) % SIZE_MOD) < SIZE_MOD := by
  split
  · norm_num [SIZE_MOD]
  · exact Nat.mod_lt _ (by norm_num [SIZE_MOD])

theorem emplace_back_ok_inv (v v2 : Vector T) (a : Arg T) (hres : v.emplace_back a = .ok v2) :
    ∃ v1 x h3, v.checkSize = .ok v1 ∧ a.fetch v1.heap v.memory = .ok x ∧
      v1.heap.construct v1.memory v1.m_size x = .ok h3 ∧
      v2 = { v1 with m_size := (v1.m_size + 1) % SIZE_MOD, heap := h3 } := by
  unfold emplace_back at hres
  cases hcs : v.checkSize with
  | threw e v1 => simp [hcs] at hres
  | ub u v1 => simp [hcs] at hres
  | ok v1 =>
      simp only [hcs] at hres
      cases hf : a.fetch v1.heap v.memory with
      | error u => simp [hf] at hres
      | ok x =>
          simp only [hf] at hres
          cases hk : v1.heap.construct v1.memory v1.m_size x with
          | ub u h3 => simp [hk] at hres
          | threw e h3 =>
              simp only [hk] at hres
              split at hres <;> simp at hres
          | ok h3 =>
              simp only [hk, Outcome.ok.injEq] at hres
              exact ⟨v1, x, h3, rfl, hf, hk, hres.symm⟩

/-- A returning append that grew the vector got a block of the size it asked for. -/
theorem append_fit (v v2 : Vector T) (a : Arg T) (hle : v.m_size ≤ v.m_capacity)
    (hres : v.emplace_back a = .ok v2)
    (hge : v.m_size ≥ v.m_capacity)
    (hguard : ¬((if v.m_capacity = 0 then 2 else (v.m_capacity * 2) % SIZE_MOD) ≤ 0 ∨
      (if v.m_capacity = 0 then 2 else (v.m_capacity * 2) % SIZE_MOD) < v.m_capacity)) :
    v.heap.slotsFor (if v.m_capacity = 0 then 2 else (v.m_capacity * 2) % SIZE_MOD) =
      (if v.m_capacity = 0 then 2 else (v.m_capacity * 2) % SIZE_MOD) := by
  obtain ⟨v1, x, h3, hcs, _, hk, _⟩ := emplace_back_ok_inv v v2 a hres
  obtain ⟨g, hg⟩ : ∃ g, g = (if v.m_capacity = 0 then 2 else (v.m_capacity * 2) % SIZE_MOD) :=
    ⟨_, rfl⟩
  rw [← hg] at hguard ⊢
  unfold checkSize at hcs
  rw [if_pos hge, ← hg] at hcs
  have hf := reserve_frame v g
  rw [hcs] at hf
  simp only [Outcome.state] at hf
  obtain ⟨hsz, hcases⟩ := hf
  rcases hcases with ⟨_, _, _, hgd⟩ | ⟨_, hc, hm, hs⟩
  · exact absurd (hgd ⟨v1, rfl⟩) (by omega)
  · obtain ⟨b, hb, k, hkk, hlt2⟩ := construct_slot _ _ _ _ _ (Or.inl hk)
    rw [hm] at hb
    cases hb
    have hlen : v.heap.blocks.length = (shape v.heap).length := by simp [shape]
    rw [hs, hlen, List.getElem?_append_right (Nat.le_refl _)] at hkk
    simp only [Nat.sub_self, List.getElem?_cons_zero, Option.some.injEq] at hkk
    rcases slotsFor_cases v.heap g with hfit | hwrap
    · exact hfit
    · exfalso
      have hgle : g ≤ 2 * v.m_size + 2 := by
        rw [hg]
        split
        · omega
        · have := Nat.mod_le (v.m_capacity * 2) SIZE_MOD
          omega
      have hg2 : v.m_capacity = 0 → g = 2 := by
        intro h0
        rw [hg, if_pos h0]
      have hgc : v.m_capacity ≠ 0 → g ≤ 2 * v.m_size := by
        intro h0
        rw [hg, if_neg h0]
        have := Nat.mod_le (v.m_capacity * 2) SIZE_MOD
        omega
      by_cases h0 : v.m_capacity = 0
      · have := hg2 h0
        omega
      · have := hgc h0
        omega

theorem checkSize_rep (v v1 : Vector T) (xs : List T) (hrep : Rep v xs)
    (hfit : v.m_size ≥ v.m_capacity →
      ¬((if v.m_capacity = 0 then 2 else (v.m_capacity * 2) % SIZE_MOD) ≤ 0 ∨
        (if v.m_capacity = 0 then 2 else (v.m_capacity * 2) % SIZE_MOD) < v.m_capacity) →
      v.heap.slotsFor (if v.m_capacity = 0 then 2 else (v.m_capacity * 2) % SIZE_MOD) =
        (if v.m_capacity = 0 then 2 else (v.m_capacity * 2) % SIZE_MOD))
    (hcs : v.checkSize = .ok v1) : Rep v1 xs := by
  unfold checkSize at hcs
  split at hcs
  · rename_i hge
    exact (reserve_rep v v1 xs _ hrep (growth_lt_mod _) (hfit hge) hcs).1
  · simp only [Outcome.ok.injEq] at hcs
    subst hcs
    exact hrep

theorem checkSize_rep_of_append (v v1 v2 : Vector T) (xs : List T) (a : Arg T)
    (hrep : Rep v xs) (hres : v.emplace_back a = .ok v2) (hcs : v.checkSize = .ok v1) :
    Rep v1 xs :=
  checkSize_rep v v1 xs hrep
    (fun hge hguard => append_fit v v2 a (by rw [hrep.1]; exact hrep.2.1) hres hge
      hguard) hcs

theorem construct_back (v1 : Vector T) (xs : List T) (x : T) (h3 : Heap T)
    (hrep1 : Rep v1 xs) (hk : v1.heap.construct v1.memory v1.m_size x = .ok h3) :
    xs.length < v1.m_capacity ∧
      Rep ({ v1 with m_size := (v1.m_size + 1) % SIZE_MOD, heap := h3 } : Vector T)
        (xs ++ [x]) ∧
      h3.constructs = v1.heap.constructs + 1 ∧ h3.destroys = v1.heap.destroys ∧
      h3.unreleased = v1.heap.unreleased ∧ h3.elemSize = v1.heap.elemSize ∧
      h3.allocPlan = v1.heap.allocPlan ∧ h3.ctorPlan = v1.heap.ctorPlan.tail := by
  obtain ⟨hsize, hle, hlt, hmem⟩ := hrep1
  cases hm : v1.memory with
  | none => simp [hm, Heap.construct, Heap.slotBlock] at hk
  | some b =>
      rw [hm] at hmem hk
      simp only at hmem
      by_cases hfull : xs.length < v1.m_capacity
      · have hcons := construct_eq v1.heap b xs.length _ x hmem rfl (by simp; omega)
        rw [hsize, hcons] at hk
        by_cases hp : v1.heap.ctorPlan.head? = some true
        · simp [hp] at hk
        · simp only [hp, if_false, Outcome.ok.injEq] at hk
          subst hk
          have hmod : (xs.length + 1) % SIZE_MOD = xs.length + 1 :=
            Nat.mod_eq_of_lt (by omega)
          have hb_lt := lt_of_getElem? _ _ _ hmem
          have hk1 : v1.m_capacity - xs.length = (v1.m_capacity - (xs.length + 1)) + 1 := by
            omega
          have hset := slots_set_raw (xs.map some) (some x)
            (v1.m_capacity - (xs.length + 1))
          rw [← hk1, List.length_map] at hset
          refine ⟨hfull, ⟨by simp [hsize, hmod], by simpa using hfull, hlt, ?_⟩, rfl, rfl, ?_,
            rfl, rfl, rfl⟩
          · simp only [hm]
            rw [List.getElem?_set_self hb_lt, hset]
            simp
          · simp only [Heap.unreleased]
            exact countP_set_same _ _ b _ _ hmem rfl
      · exfalso
        simp [hsize, Heap.construct, Heap.slotBlock, hmem, hfull] at hk

theorem fetch_denotes (v v1 : Vector T) (xs : List T) (a : Arg T) (x : T)
    (hrep : Rep v xs) (hcs : v.checkSize = .ok v1) (hrep1 : Rep v1 xs)
    (hf : a.fetch v1.heap v.memory = .ok x) : a.denotes xs x := by
  cases a with
  | outside y =>
      simp only [Arg.fetch, Except.ok.injEq] at hf
      exact hf.symm
  | own j =>
      simp only [Arg.fetch] at hf
      simp only [Arg.denotes]
      unfold checkSize at hcs
      by_cases hge : v.m_size ≥ v.m_capacity
      · rw [if_pos hge] at hcs
        obtain ⟨g, hg⟩ : ∃ g, g = (if v.m_capacity = 0 then 2
            else (v.m_capacity * 2) % SIZE_MOD) := ⟨_, rfl⟩
        rw [← hg] at hcs
        by_cases hguard : g ≤ 0 ∨ g < v.m_capacity
        · simp only [reserve, hguard, if_true, Outcome.ok.injEq] at hcs
          subst hcs
          cases hm : v.memory with
          | none =>
              rw [hm] at hf
              obtain ⟨u, hu⟩ := read_null_error v.heap j
              rw [hu] at hf
              cases hf
          | some b =>
              have hmem := hrep.2.2.2
              rw [hm] at hmem hf
              exact read_rep_inv v.heap b j _ xs x hmem hf
        · exfalso
          by_cases hfail : v.heap.allocPlan.head? = some true ∨
              true ∈ v.heap.ctorPlan.take xs.length ∨ v.heap.slotsFor g < xs.length
          · exact reserve_not_ok v xs g hrep (by omega) (by omega) hfail v1 hcs
          · obtain ⟨w, hw, _, _, _, _, _, _, _, _, _, _, hrd⟩ := reserve_ok_room v xs g hrep
              (by omega) (by omega) (fun h => hfail (Or.inl h))
              (fun h => hfail (Or.inr (Or.inl h)))
              (Nat.le_of_not_lt (fun h => hfail (Or.inr (Or.inr h))))
            rw [hcs] at hw
            simp only [Outcome.ok.injEq] at hw
            subst hw
            obtain ⟨u, hu⟩ := hrd j
            rw [hu] at hf
            cases hf
      · rw [if_neg hge] at hcs
        simp only [Outcome.ok.injEq] at hcs
        subst hcs
        cases hm : v.memory with
        | none =>
            rw [hm] at hf
            obtain ⟨u, hu⟩ := read_null_error v.heap j
            rw [hu] at hf
            cases hf
        | some b =>
            have hmem := hrep.2.2.2
            rw [hm] at hmem hf
            exact read_rep_inv v.heap b j _ xs x hmem hf

theorem emplace_back_rep (v v2 : Vector T) (xs : List T) (a : Arg T) (hrep : Rep v xs)
    (hres : v.emplace_back a = .ok v2) : ∃ x, a.denotes xs x ∧ Rep v2 (xs ++ [x]) := by
  obtain ⟨v1, x, h3, hcs, hf, hk, hv2⟩ := emplace_back_ok_inv v v2 a hres
  have hrep1 := checkSize_rep_of_append v v1 v2 xs a hrep hres hcs
  refine ⟨x, fetch_denotes v v1 xs a x hrep hcs hrep1 hf, ?_⟩
  rw [hv2]
  exact (construct_back v1 xs x h3 hrep1 hk).2.1

theorem emplace_back_outside_rep (v v2 : Vector T) (xs : List T) (x : T) (hrep : Rep v xs)
    (hres : v.emplace_back (.outside x) = .ok v2) : Rep v2 (xs ++ [x]) := by
  obtain ⟨y, hy, hrep2⟩ := emplace_back_rep v v2 xs (.outside x) hrep hres
  simp only [Arg.denotes] at hy
  subst hy
  exact hrep2

theorem pushAll_rep (vs : List T) :
    ∀ (v v2 : Vector T) (xs : List T), Rep v xs → v.pushAll vs = .ok v2 → Rep v2 (xs ++ vs) := by
  induction vs with
  | nil =>
      intro v v2 xs hrep hres
      simp only [pushAll, Outcome.ok.injEq] at hres
      subst hres
      simpa using hrep
  | cons x vs ih =>
      intro v v2 xs hrep hres
      simp only [pushAll, push_back] at hres
      cases he : v.emplace_back (.outside x) with
      | threw e v1 => simp [he] at hres
      | ub u v1 => simp [he] at hres
      | ok v1 =>
          simp only [he] at hres
          have := ih v1 v2 (xs ++ [x]) (emplace_back_outside_rep v v1 xs x hrep he) hres
          simpa using this

theorem subscript_of_block (v : Vector T) (b : Nat) (xs : List T) (raw : List (Option T))
    (hm : v.memory = some b) (hb : v.heap.blocks[b]? = some ⟨xs.map some ++ raw, false⟩)
    (i : Nat) (hi : i < xs.length) : v.subscript i = .ref xs[i] := by
  simp [subscript, deref, hm, read_live v.heap b i xs raw hb hi]

theorem rep_subscript (v : Vector T) (xs : List T) (hrep : Rep v xs) (i : Nat)
    (hi : i < xs.length) : v.subscript i = .ref xs[i] := by
  obtain ⟨hsize, hle, hlt, hmem⟩ := hrep
  cases hm : v.memory with
  | none =>
      exfalso
      rw [hm] at hmem
      simp only at hmem
      omega
  | some b =>
      rw [hm] at hmem
      simp only at hmem
      exact subscript_of_block v b xs _ hm hmem i hi

theorem rep_new (h : Heap T) : Rep (new h) [] := by
  simp [Rep, new]

/-! ## `m_size ≤ m_capacity` is kept by every call -/

theorem bounded_of_kept (v s : Vector T) (hb : Bounded v) (h1 : s.m_size = v.m_size)
    (h2 : s.m_capacity = v.m_capacity) (h3 : s.memory = v.memory)
    (h4 : ∃ t, shape s.heap = shape v.heap ++ t) : Bounded s := by
  obtain ⟨hle, hlt, hmem⟩ := hb
  obtain ⟨t, ht⟩ := h4
  refine ⟨by omega, by omega, ?_⟩
  intro b hb
  rw [h3] at hb
  obtain ⟨k, hget, hk⟩ := hmem b hb
  refine ⟨k, ?_, by omega⟩
  rw [ht, List.getElem?_append_left (lt_of_getElem? _ _ _ hget)]
  exact hget

theorem bounded_new (h : Heap T) : Bounded (new h) := by
  refine ⟨Nat.le_refl _, by norm_num [new, SIZE_MOD], ?_⟩
  intro b hb
  cases hb

theorem reserve_bounded (v : Vector T) (n : Nat) (hb : Bounded v) (hn : n < SIZE_MOD) :
    Bounded (v.reserve n).state := by
  obtain ⟨hsz, hcases⟩ := reserve_frame v n
  rcases hcases with ⟨hc, hm, ht, _⟩ | ⟨hle, hc, hm, hs⟩
  · exact bounded_of_kept v _ hb hsz hc hm ht
  · refine ⟨by have := hb.1; omega, by omega, ?_⟩
    intro b hbm
    rw [hm] at hbm
    cases hbm
    refine ⟨v.heap.slotsFor n, ?_, by rw [hc]; exact slotsFor_le v.heap n⟩
    have hlen : v.heap.blocks.length = (shape v.heap).length := by simp [shape]
    rw [hs, hlen, List.getElem?_append_right (Nat.le_refl _)]
    simp

theorem assign_bounded (v : Vector T) (count : Nat) (value : T) (hb : Bounded v)
    (hn : count < SIZE_MOD) : Bounded (v.assign count value).state := by
  unfold assign
  obtain ⟨C, hC⟩ : ∃ C, C = (if v.m_size > 0 then clear v else .ok v) := ⟨_, rfl⟩
  have hbC : Bounded C.state := by
    rw [hC]
    split
    · obtain ⟨a, b, c, d⟩ := clear_frame v
      exact bounded_of_kept v _ hb a b c ⟨[], by simpa using d⟩
    · exact hb
  rw [← hC]
  cases C with
  | threw e v1 => exact hbC
  | ub u v1 => exact hbC
  | ok v1 =>
      simp only [Outcome.state] at hbC
      simp only
      have hbR := reserve_bounded v1 count hbC hn
      have hfR := reserve_frame v1 count
      cases hR : v1.reserve count with
      | threw e v2 => rw [hR] at hbR; exact hbR
      | ub u v2 => rw [hR] at hbR; exact hbR
      | ok v2 =>
          rw [hR] at hbR hfR
          simp only [Outcome.state] at hbR hfR
          have hcount : count ≤ v2.m_capacity := by
            rcases hfR.2 with ⟨hc, _, _, hg⟩ | ⟨_, hc, _, _⟩
            · have := hg ⟨v2, rfl⟩
              omega
            · omega
          simp only
          have hsF := shape_fillLoop v2.memory value count 0 v2.heap
          cases hF : fillLoop v2.memory value count 0 v2.heap with
          | done h3 =>
              rw [hF] at hsF
              simp only [LoopResult.heap] at hsF
              refine ⟨hcount, hbR.2.1, ?_⟩
              intro b hbm
              simp only [Outcome.state]
              rw [hsF]
              exact hbR.2.2 b hbm
          | ub u h3 =>
              rw [hF] at hsF
              exact bounded_of_kept v2 _ hbR rfl rfl rfl ⟨[], by simpa using hsF⟩
          | threw k h3 =>
              rw [hF] at hsF
              simp only [LoopResult.heap] at hsF
              simp only
              have hsD := shape_destroyFirstLoop v2.memory k h3
              cases hD : destroyFirstLoop v2.memory k h3 with
              | ok h4 =>
                  rw [hD] at hsD
                  exact bounded_of_kept v2 _ hbR rfl rfl rfl
                    ⟨[], by simpa using hsD.trans hsF⟩
              | threw e h4 =>
                  rw [hD] at hsD
                  exact bounded_of_kept v2 _ hbR rfl rfl rfl
                    ⟨[], by simpa using hsD.trans hsF⟩
              | ub u h4 =>
                  rw [hD] at hsD
                  exact bounded_of_kept v2 _ hbR rfl rfl rfl
                    ⟨[], by simpa using hsD.trans hsF⟩

theorem checkSize_bounded (v : Vector T) (hb : Bounded v) : Bounded v.checkSize.state := by
  unfold checkSize
  split
  · exact reserve_bounded v _ hb (growth_lt_mod _)
  · exact hb

theorem emplace_back_bounded (v v2 : Vector T) (a : Arg T) (hb : Bounded v)
    (hres : v.emplace_back a = .ok v2 ∨ ∃ e, v.emplace_back a = .threw e v2) :
    Bounded v2 := by
  have hb1 := checkSize_bounded v hb
  unfold emplace_back at hres
  cases hcs : v.checkSize with
  | ub u v1 =>
      exfalso
      rcases hres with h | ⟨e, h⟩ <;> simp [hcs] at h
  | threw e v1 =>
      rw [hcs] at hb1
      rcases hres with h | ⟨e1, h⟩
      · simp [hcs] at h
      · simp only [hcs, Outcome.threw.injEq] at h
        rw [← h.2]
        exact hb1
  | ok v1 =>
      rw [hcs] at hb1
      simp only [Outcome.state] at hb1
      simp only [hcs] at hres
      cases hf : a.fetch v1.heap v.memory with
      | error u =>
          exfalso
          rcases hres with h | ⟨e, h⟩ <;> simp [hf] at h
      | ok x =>
      simp only [hf] at hres
      have hsc := shape_construct v1.heap v1.memory v1.m_size x
      cases hk : v1.heap.construct v1.memory v1.m_size x with
      | ub u h3 =>
          exfalso
          rcases hres with h | ⟨e, h⟩ <;> simp [hk] at h
      | ok h3 =>
          rw [hk] at hsc
          simp only [Outcome.state] at hsc
          obtain ⟨b, hmb, n, hn, hlt⟩ := construct_slot _ _ _ _ _ (Or.inl hk)
          obtain ⟨k, hk1, hkle⟩ := hb1.2.2 b hmb
          rw [hn] at hk1
          cases hk1
          have hmod : (v1.m_size + 1) % SIZE_MOD = v1.m_size + 1 :=
            Nat.mod_eq_of_lt (by have := hb1.2.1; omega)
          rcases hres with h | ⟨e, h⟩
          · simp only [hk, Outcome.ok.injEq] at h
            rw [← h]
            refine ⟨by simp only [hmod]; omega, hb1.2.1, ?_⟩
            intro b1 hb1m
            simp only
            rw [hsc]
            exact hb1.2.2 b1 hb1m
          · simp [hk] at h
      | threw e h3 =>
          rw [hk] at hsc
          simp only [Outcome.state] at hsc
          obtain ⟨b, hmb, n, hn, hlt⟩ := construct_slot _ _ _ _ _ (Or.inr ⟨e, hk⟩)
          obtain ⟨k, hk1, hkle⟩ := hb1.2.2 b hmb
          rw [hn] at hk1
          cases hk1
          have hmod : (v1.m_size + 1) % SIZE_MOD = v1.m_size + 1 :=
            Nat.mod_eq_of_lt (by have := hb1.2.1; omega)
          have hsd := shape_destroy h3 v1.memory ((v1.m_size + 1) % SIZE_MOD)
          simp only [hk] at hres
          cases hd : h3.destroy v1.memory ((v1.m_size + 1) % SIZE_MOD) with
          | ub u h4 =>
              exfalso
              rcases hres with h | ⟨e1, h⟩ <;> simp [hd] at h
          | ok h4 =>
              rw [hd] at hsd
              simp only [Outcome.state] at hsd
              rcases hres with h | ⟨e1, h⟩
              · simp [hd] at h
              · simp only [hd, Outcome.threw.injEq] at h
                rw [← h.2]
                refine ⟨by simp only [hmod]; omega, hb1.2.1, ?_⟩
                intro b1 hb1m
                simp only
                rw [hsd, hsc]
                exact hb1.2.2 b1 hb1m
          | threw e4 h4 =>
              rw [hd] at hsd
              simp only [Outcome.state] at hsd
              rcases hres with h | ⟨e1, h⟩
              · simp [hd] at h
              · simp only [hd, Outcome.threw.injEq] at h
                rw [← h.2]
                refine ⟨by simp only [hmod]; omega, hb1.2.1, ?_⟩
                intro b1 hb1m
                simp only
                rw [hsd, hsc]
                exact hb1.2.2 b1 hb1m

theorem emplace_back_unwound_bounded (v v1 : Vector T) (a : Arg T) (x : T) (e : Exn)
    (h3 : Heap T) (hb : Bounded v) (hcs : v.checkSize = .ok v1)
    (hf : a.fetch v1.heap v.memory = .ok x)
    (hk : v1.heap.construct v1.memory v1.m_size x = .threw e h3) :
    Bounded (v.emplace_back a).state := by
  have hb1 := checkSize_bounded v hb
  rw [hcs] at hb1
  simp only [Outcome.state] at hb1
  have hsc := shape_construct v1.heap v1.memory v1.m_size x
  rw [hk] at hsc
  simp only [Outcome.state] at hsc
  obtain ⟨b, hmb, n, hn, hlt⟩ := construct_slot _ _ _ _ _ (Or.inr ⟨e, hk⟩)
  obtain ⟨k, hk1, hkle⟩ := hb1.2.2 b hmb
  rw [hn] at hk1
  cases hk1
  have hmod : (v1.m_size + 1) % SIZE_MOD = v1.m_size + 1 :=
    Nat.mod_eq_of_lt (by have := hb1.2.1; omega)
  have hsd := shape_destroy h3 v1.memory ((v1.m_size + 1) % SIZE_MOD)
  have hgoal : ∀ h4 : Heap T, shape h4 = shape h3 →
      Bounded ({ v1 with m_size := (v1.m_size + 1) % SIZE_MOD, heap := h4 } : Vector T) := by
    intro h4 h4s
    refine ⟨by simp only [hmod]; omega, hb1.2.1, ?_⟩
    intro b1 hb1m
    simp only
    rw [h4s, hsc]
    exact hb1.2.2 b1 hb1m
  unfold emplace_back
  simp only [hcs, hf, hk]
  cases hd : h3.destroy v1.memory ((v1.m_size + 1) % SIZE_MOD) with
  | ok h4 => rw [hd] at hsd; exact hgoal h4 hsd
  | threw e4 h4 => rw [hd] at hsd; exact hgoal h4 hsd
  | ub u h4 => rw [hd] at hsd; exact hgoal h4 hsd

theorem reachable_bounded (v : Vector T) (hr : Reachable v) : Bounded v := by
  induction hr with
  | ctor h => exact bounded_new h
  | ctor_sized h count v hc hv =>
      have := reserve_bounded (new h) count (bounded_new h) hc
      unfold newSized at hv
      rw [hv] at this
      exact this
  | ctor_fill h count value v hc hv =>
      have := assign_bounded (new h) count value (bounded_new h) hc
      unfold newFill at hv
      rw [hv] at this
      exact this
  | reserve_ok v v1 count _ hc hv ih =>
      have := reserve_bounded v count ih hc
      rw [hv] at this
      exact this
  | reserve_threw v v1 count e _ hc hv ih =>
      have := reserve_bounded v count ih hc
      rw [hv] at this
      exact this
  | assign_ok v v1 count value _ hc hv ih =>
      have := assign_bounded v count value ih hc
      rw [hv] at this
      exact this
  | assign_threw v v1 count value e _ hc hv ih =>
      have := assign_bounded v count value ih hc
      rw [hv] at this
      exact this
  | push_back_ok v v1 value _ hv ih => exact emplace_back_bounded v v1 value ih (Or.inl hv)
  | push_back_threw v v1 value e _ hv ih =>
      exact emplace_back_bounded v v1 value ih (Or.inr ⟨e, hv⟩)
  | emplace_back_ok v v1 x _ hv ih => exact emplace_back_bounded v v1 x ih (Or.inl hv)
  | emplace_back_threw v v1 x e _ hv ih =>
      exact emplace_back_bounded v v1 x ih (Or.inr ⟨e, hv⟩)
  | emplace_back_unwound v v1 a x e h3 _ hcs hf hk ih =>
      exact emplace_back_unwound_bounded v v1 a x e h3 ih hcs hf hk

/-! ## `m_size ≤ m_capacity` when undefined actions are survived -/

end Vector

namespace Layout

theorem calls_deallocate (l : Layout) (p : Option Nat) :
    (l.deallocate p).ctorCalls = l.ctorCalls := by
  cases p <;> rfl

theorem calls_destroyLoop (p : Option Nat) (n : Nat) :
    ∀ (i : Nat) (l : Layout), (destroyLoop p n i l).ctorCalls = l.ctorCalls := by
  induction n with
  | zero => intro i l; rfl
  | succ n ih =>
      intro i l
      simp only [destroyLoop]
      rw [ih]
      rfl

theorem calls_destroyFirstLoop (p : Option Nat) (n : Nat) :
    ∀ l : Layout, (destroyFirstLoop p n l).ctorCalls = l.ctorCalls := by
  induction n with
  | zero => intro l; rfl
  | succ n ih =>
      intro l
      simp only [destroyFirstLoop]
      rw [ih]
      rfl

theorem calls_construct (l : Layout) (p : Option Nat) (i : Nat) :
    (l.construct p i).2.ctorCalls = l.ctorCalls + 1 := by
  unfold construct
  split <;> rfl

/-- A loop of constructions never lowers the count of constructor calls, and a
loop that ran to its end has entered one call for each iteration. -/
theorem calls_constructLoop (p : Option Nat) (n : Nat) :
    ∀ (c : Nat) (l : Layout),
      l.ctorCalls ≤ (constructLoop p n c l).layout.ctorCalls ∧
      ∀ l1, constructLoop p n c l = .done l1 → l1.ctorCalls = l.ctorCalls + n := by
  induction n with
  | zero =>
      intro c l
      refine ⟨Nat.le_refl _, ?_⟩
      intro l1 h
      simp only [constructLoop, LayoutLoop.done.injEq] at h
      rw [← h]
      rfl
  | succ n ih =>
      intro c l
      have hs := calls_construct l p c
      simp only [constructLoop]
      cases hk : l.construct p c with
      | mk e l1 =>
          rw [hk] at hs
          simp only at hs
          cases e with
          | none =>
              simp only
              obtain ⟨h1, h2⟩ := ih (c + 1) l1
              refine ⟨by omega, ?_⟩
              intro l2 hd
              rw [h2 l2 hd]
              omega
          | some e =>
              simp only [LayoutLoop.layout]
              refine ⟨by omega, ?_⟩
              intro l2 hd
              cases hd

end Layout

namespace Members

theorem members_bounded_new (l : Layout) : Bounded (new l) := by
  refine ⟨Nat.zero_le _, by norm_num [new, SIZE_MOD], Or.inl (Nat.le_refl _)⟩

theorem members_clear_frame (m : Members) :
    (clear m).m_size = m.m_size ∧ (clear m).m_capacity = m.m_capacity ∧
      (clear m).memory = m.memory ∧ (clear m).layout.ctorCalls = m.layout.ctorCalls := by
  refine ⟨rfl, rfl, rfl, ?_⟩
  simp only [clear]
  rw [Layout.calls_deallocate, Layout.calls_destroyLoop]

/-- What `reserve` does to the members, however it ends: `m_size` is kept and
the count of constructor calls is not lowered; either the capacity is kept,
with `count` below it or 0 if the call returned, or the call returned with
capacity `count`, not below the old one. -/
theorem members_reserve_frame (m : Members) (count : Nat) :
    (m.reserve count).state.m_size = m.m_size ∧
    m.layout.ctorCalls ≤ (m.reserve count).state.layout.ctorCalls ∧
    (((m.reserve count).state.m_capacity = m.m_capacity ∧
        ((∃ m1, m.reserve count = .ok m1) → count ≤ 0 ∨ count < m.m_capacity)) ∨
      (m.m_capacity ≤ count ∧ (m.reserve count).state.m_capacity = count)) := by
  unfold reserve
  by_cases hg : count ≤ 0 ∨ count < m.m_capacity
  · rw [if_pos hg]
    exact ⟨rfl, Nat.le_refl _, Or.inl ⟨rfl, fun _ => hg⟩⟩
  · rw [if_neg hg]
    unfold Layout.allocate
    by_cases hp : m.layout.allocPlan.head? = some true
    · rw [if_pos hp]
      refine ⟨rfl, ?_, Or.inl ⟨rfl, ?_⟩⟩
      · simp only [Outcome.state]
        rw [Layout.calls_deallocate, Layout.calls_destroyLoop]
      · rintro ⟨m1, h⟩
        cases h
    · rw [if_neg hp]
      simp only
      obtain ⟨l1, hl1⟩ : ∃ l1 : Layout, l1 = { m.layout with
          allocPlan := m.layout.allocPlan.tail, blocks := m.layout.blocks + 1 } := ⟨_, rfl⟩
      rw [← hl1]
      have hs1 : l1.ctorCalls = m.layout.ctorCalls := by rw [hl1]
      obtain ⟨L, hL⟩ : ∃ L, L = (if m.m_size ≠ 0 then
          Layout.constructLoop (some m.layout.blocks) m.m_size 0 l1 else .done l1) :=
        ⟨_, rfl⟩
      have hsL : l1.ctorCalls ≤ L.layout.ctorCalls := by
        rw [hL]
        split
        · exact (Layout.calls_constructLoop _ _ _ _).1
        · exact Nat.le_refl _
      rw [← hL]
      cases L with
      | done l2 =>
          simp only [LayoutLoop.layout] at hsL
          refine ⟨?_, ?_, Or.inr ⟨by omega, rfl⟩⟩
          · simp only [Outcome.state]
            split <;> rfl
          · simp only [Outcome.state]
            split
            · rw [(members_clear_frame _).2.2.2]
              simp only
              omega
            · simp only
              omega
      | threw c l2 =>
          simp only [LayoutLoop.layout] at hsL
          refine ⟨rfl, ?_, Or.inl ⟨rfl, ?_⟩⟩
          · simp only [Outcome.state]
            rw [Layout.calls_deallocate, Layout.calls_destroyLoop]
            omega
          · rintro ⟨m1, h⟩
            cases h

theorem members_reserve_bounded (m : Members) (n : Nat) (hb : Bounded m) (hn : n < SIZE_MOD) :
    Bounded (m.reserve n).state := by
  obtain ⟨hsz, hcalls, hcases⟩ := members_reserve_frame m n
  obtain ⟨h1, h2, h3⟩ := hb
  rcases hcases with ⟨hc, _⟩ | ⟨hle, hc⟩
  · refine ⟨by omega, by omega, ?_⟩
    rcases h3 with h | h
    · exact Or.inl (by omega)
    · exact Or.inr (by omega)
  · refine ⟨by omega, by omega, ?_⟩
    rcases h3 with h | h
    · exact Or.inl (by omega)
    · exact Or.inr (by omega)

theorem members_assign_bounded (m : Members) (count : Nat) (hb : Bounded m)
    (hn : count < SIZE_MOD) : Bounded (m.assign count).state := by
  unfold assign
  obtain ⟨C, hC⟩ : ∃ C, C = (if m.m_size > 0 then clear m else m) := ⟨_, rfl⟩
  have hbC : Bounded C := by
    rw [hC]
    split
    · obtain ⟨a, b, _, d⟩ := members_clear_frame m
      obtain ⟨h1, h2, h3⟩ := hb
      refine ⟨by omega, by omega, ?_⟩
      rcases h3 with h | h
      · exact Or.inl (by omega)
      · exact Or.inr (by omega)
    · exact hb
  rw [← hC]
  have hbR := members_reserve_bounded C count hbC hn
  have hfR := members_reserve_frame C count
  cases hR : C.reserve count with
  | threw e m2 => rw [hR] at hbR; exact hbR
  | ub u m2 => rw [hR] at hbR; exact hbR
  | ok m2 =>
      rw [hR] at hbR hfR
      simp only [Outcome.state] at hbR hfR
      have hcount : count ≤ m2.m_capacity := by
        rcases hfR.2.2 with ⟨hc, hg⟩ | ⟨_, hc⟩
        · have := hg ⟨m2, rfl⟩
          omega
        · omega
      simp only
      obtain ⟨hF1, hF2⟩ := Layout.calls_constructLoop m2.memory count 0 m2.layout
      obtain ⟨h1, h2, h3⟩ := hbR
      cases hF : Layout.constructLoop m2.memory count 0 m2.layout with
      | done l3 =>
          have := hF2 l3 hF
          refine ⟨?_, h2, Or.inl hcount⟩
          simp only [Outcome.state]
          omega
      | threw k l3 =>
          rw [hF] at hF1
          simp only [LayoutLoop.layout] at hF1
          simp only [Outcome.state]
          refine ⟨?_, h2, ?_⟩
          · simp only
            rw [Layout.calls_destroyFirstLoop]
            omega
          · simp only
            rw [Layout.calls_destroyFirstLoop]
            rcases h3 with h | h
            · exact Or.inl h
            · exact Or.inr (by omega)

theorem members_checkSize_bounded (m : Members) (hb : Bounded m) :
    Bounded m.checkSize.state := by
  unfold checkSize
  split
  · exact members_reserve_bounded m _ hb (Vector.growth_lt_mod _)
  · exact hb

/-- After a `checkSize()` that returned there is room for one more element,
unless `2 ^ 63` constructor calls have been entered. -/
theorem members_checkSize_room (m m1 : Members) (hb : Bounded m)
    (hcs : m.checkSize = .ok m1) :
    m1.m_size < m1.m_capacity ∨ 2 ^ 63 ≤ m1.layout.ctorCalls := by
  have hM : SIZE_MOD = 18446744073709551616 := by norm_num [SIZE_MOD]
  have hP : (2 : Nat) ^ 63 = 9223372036854775808 := by norm_num
  obtain ⟨h1, h2, h3⟩ := hb
  unfold checkSize at hcs
  by_cases hge : m.m_size ≥ m.m_capacity
  · rw [if_pos hge] at hcs
    obtain ⟨g, hg⟩ : ∃ g, g = (if m.m_capacity = 0 then 2 else (m.m_capacity * 2) % SIZE_MOD) :=
      ⟨_, rfl⟩
    rw [← hg] at hcs
    obtain ⟨hsz, hcalls, hcases⟩ := members_reserve_frame m g
    rw [hcs] at hsz hcalls hcases
    simp only [Outcome.state] at hsz hcalls hcases
    rcases h3 with hle | hbig
    · have hgval : 2 * m.m_capacity < SIZE_MOD → g = if m.m_capacity = 0 then 2
          else 2 * m.m_capacity := by
        intro hlt
        rw [hg]
        split
        · rfl
        · rw [Nat.mod_eq_of_lt (by omega)]
          omega
      by_cases hwrap : 2 * m.m_capacity < SIZE_MOD
      · have hgv := hgval hwrap
        have hgrow : m.m_capacity < g ∧ 0 < g := by
          rw [hgv]
          split <;> omega
        rcases hcases with ⟨_, hguard⟩ | ⟨_, hc⟩
        · have := hguard ⟨m1, rfl⟩
          omega
        · left
          omega
      · right
        rw [hP]
        rw [hM] at hwrap
        omega
    · right
      omega
  · rw [if_neg hge] at hcs
    simp only [Outcome.ok.injEq] at hcs
    subst hcs
    left
    omega

theorem members_emplace_back_bounded (m : Members) (hb : Bounded m) :
    Bounded m.emplace_back.state := by
  have hb1 := members_checkSize_bounded m hb
  unfold emplace_back
  cases hcs : m.checkSize with
  | ub u m1 => rw [hcs] at hb1; exact hb1
  | threw e m1 => rw [hcs] at hb1; exact hb1
  | ok m1 =>
      rw [hcs] at hb1
      simp only [Outcome.state] at hb1
      have hroom := members_checkSize_room m m1 hb hcs
      have hsc := Layout.calls_construct m1.layout m1.memory m1.m_size
      have hmodle : (m1.m_size + 1) % SIZE_MOD ≤ m1.m_size + 1 := Nat.mod_le _ _
      obtain ⟨h1, h2, _⟩ := hb1
      simp only
      cases hk : m1.layout.construct m1.memory m1.m_size with
      | mk e l3 =>
          rw [hk] at hsc
          simp only at hsc
          have hgoal : ∀ l4 : Layout, l4.ctorCalls = l3.ctorCalls →
              Bounded ({ m1 with m_size := (m1.m_size + 1) % SIZE_MOD, layout := l4 } :
                Members) := by
            intro l4 h4
            refine ⟨by simp only; omega, h2, ?_⟩
            rcases hroom with h | h
            · left
              simp only
              omega
            · right
              simp only
              omega
          cases e with
          | none => exact hgoal l3 rfl
          | some e => exact hgoal _ rfl

theorem constructLoop_unplanned (p : Option Nat) (n : Nat) :
    ∀ (c : Nat) (a : List Bool) (b k d r : Nat),
      Layout.constructLoop p n c ⟨a, [], b, k, d, r⟩ = .done ⟨a, [], b, k + n, d, r⟩ := by
  induction n with
  | zero => intro c a b k d r; rfl
  | succ n ih =>
      intro c a b k d r
      simp only [Layout.constructLoop, Layout.construct, List.head?_nil, List.tail_nil,
        reduceCtorEq, if_false]
      rw [ih (c + 1) a b (k + 1) d r, Nat.add_assoc, Nat.add_comm 1 n]

theorem newFill_unplanned (n : Nat) (hn : 0 < n) :
    newFill ⟨[], [], 0, 0, 0, 0⟩ n = .ok ⟨n, n, some 0, ⟨[], [], 1, n, 0, 0⟩⟩ := by
  have hg : ¬(n ≤ 0 ∨ n < 0) := by omega
  simp only [newFill, assign, new, gt_iff_lt, Nat.lt_irrefl, if_false, reserve, hg,
    Layout.allocate, List.head?_nil, reduceCtorEq, ne_eq, not_true_eq_false, List.tail_nil,
    Nat.zero_add, constructLoop_unplanned]

theorem members_reachable_bounded (m : Members) (hr : Reachable m) : Bounded m := by
  induction hr with
  | ctor l => exact members_bounded_new l
  | ctor_sized l count m hc hv =>
      have := members_reserve_bounded (new l) count (members_bounded_new l) hc
      unfold newSized at hv
      rw [hv] at this
      exact this
  | ctor_fill l count m hc hv =>
      have := members_assign_bounded (new l) count (members_bounded_new l) hc
      unfold newFill at hv
      rw [hv] at this
      exact this
  | reserve_ok m m1 count _ hc hv ih =>
      have := members_reserve_bounded m count ih hc
      rw [hv] at this
      exact this
  | reserve_threw m m1 count e _ hc hv ih =>
      have := members_reserve_bounded m count ih hc
      rw [hv] at this
      exact this
  | assign_ok m m1 count _ hc hv ih =>
      have := members_assign_bounded m count ih hc
      rw [hv] at this
      exact this
  | assign_threw m m1 count e _ hc hv ih =>
      have := members_assign_bounded m count ih hc
      rw [hv] at this
      exact this
  | push_back_ok m m1 _ hv ih =>
      have := members_emplace_back_bounded m ih
      unfold push_back at hv
      rw [hv] at this
      exact this
  | push_back_threw m m1 e _ hv ih =>
      have := members_emplace_back_bounded m ih
      unfold push_back at hv
      rw [hv] at this
      exact this
  | emplace_back_ok m m1 _ hv ih =>
      have := members_emplace_back_bounded m ih
      rw [hv] at this
      exact this
  | emplace_back_threw m m1 e _ hv ih =>
      have := members_emplace_back_bounded m ih
      rw [hv] at this
      exact this

end Members

namespace Vector

/-! ## Properties of the container -/

/-- The call `v.push_back(v[0])` on a vector that is full: `reserve` has
destroyed the elements and released the block before the constructor of the
new element reads the argument. -/
theorem push_back_own_element_when_full :
    ∃ v, (new (Heap.empty Nat)).pushAll [1, 2] = .ok v ∧ v.size = 2 ∧ v.capacity = 2 ∧
      ∃ s, v.push_back (.own 0) = .ub .released_block s := by
  exact ⟨_, rfl, rfl, rfl, _, rfl⟩

/-- C2: every reachable state satisfies `size() <= capacity()`: the states
produced by a constructor and those left by any sequence of `reserve`, `assign`,
`push_back` and `emplace_back` calls, whether a call returns or throws
(allocation failure or a throwing element constructor).  This holds for the
runs in which no call does anything undefined; and when the calls are followed
past their undefined actions it holds in every state that fewer than `2 ^ 63`
constructor calls have led to. -/
theorem size_le_capacity_of_reachable :
    (∀ v : Vector T, Reachable v → v.size ≤ v.capacity) ∧
    (∀ m : Members, Members.Reachable m → m.layout.ctorCalls < 2 ^ 63 →
      m.size ≤ m.capacity) := by
  refine ⟨fun v hr => (reachable_bounded v hr).1, ?_⟩
  intro m hr hcalls
  rcases (Members.members_reachable_bounded m hr).2.2 with h | h
  · exact h
  · omega

/-- Witness for C2: the state left by `push_back(1)`, `push_back(2)` and a
`reserve(4)` whose second copy throws; and the state left by `push_back` and
an `assign(3, _)` on the then non-empty vector whose third construction
throws. -/
theorem size_le_capacity_of_reachable_witness :
    (⟨2, 2, some 0,
      ⟨[⟨[none, some 2], false⟩, ⟨[some 1, none, none, none], true⟩], [], [], 3, 1, 4⟩⟩ :
        Vector Nat).size ≤ 2 ∧
    (⟨1, 3, some 1, ⟨[], [], 2, 5, 4, 2⟩⟩ : Members).size ≤ 3 :=
  ⟨size_le_capacity_of_reachable.1 _
    (Reachable.reserve_threw
      ⟨2, 2, some 0, ⟨[⟨[some 1, some 2], false⟩], [], [false, true], 2, 0, 4⟩⟩ _ 4 .ctor_failure
      (Reachable.push_back_ok
        ⟨1, 2, some 0, ⟨[⟨[some 1, none], false⟩], [], [false, false, true], 1, 0, 4⟩⟩ _
        (.outside 2)
        (Reachable.push_back_ok (new ⟨[], [], [false, false, false, true], 0, 0, 4⟩) _
          (.outside 1) (Reachable.ctor _) rfl)
        rfl)
      (by decide) rfl),
   (@size_le_capacity_of_reachable Nat).2 _
    (Members.Reachable.assign_threw
      ⟨1, 2, some 0, ⟨[], [false, false, false, true], 1, 1, 0, 0⟩⟩ _ 3 .ctor_failure
      (Members.Reachable.push_back_ok
        (Members.new ⟨[], [false, false, false, false, true], 0, 0, 0, 0⟩) _
        (Members.Reachable.ctor _) rfl)
      (by decide) rfl)
    (by decide)⟩

/-- Followed past its undefined actions, `assign(3, _)` on a vector holding one
element returns with `size() == 3` and `capacity() == 3`, as does the code;
and `assign(3, _)` on an empty vector whose third construction throws lets the
exception out with `size() == 0`, `capacity() == 3` and two destructor calls
made by the handler. -/
theorem assign_followed_past_undefined_actions :
    (∃ m m1, (Members.new ⟨[], [], 0, 0, 0, 0⟩).push_back = .ok m ∧ m.size = 1 ∧
      m.assign 3 = .ok m1 ∧ m1.size = 3 ∧ m1.capacity = 3) ∧
    (∃ m1, (Members.new ⟨[], [false, false, true], 0, 0, 0, 0⟩).assign 3 =
        .threw .ctor_failure m1 ∧
      m1.size = 0 ∧ m1.capacity = 3 ∧ m1.layout.destroys = 2) := by
  exact ⟨⟨_, _, rfl, rfl, rfl, rfl, rfl⟩, ⟨_, rfl, rfl, rfl, rfl⟩⟩

/-- The bound on the constructor calls in the second part of C2 cannot be
dropped: at capacity `2 ^ 63` the product `m_capacity * 2` is 0 in `size_t`,
`checkSize()` leaves a full vector as it is, and `emplace_back` counts an
element for which there is no slot. -/
theorem size_exceeds_capacity_after_wrapped_growth :
    ∃ m m1, Members.newFill ⟨[], [], 0, 0, 0, 0⟩ (2 ^ 63) = .ok m ∧
      m.size = 2 ^ 63 ∧ m.capacity = 2 ^ 63 ∧ m.layout.ctorCalls = 2 ^ 63 ∧
      m.emplace_back = .ok m1 ∧ m1.size = 2 ^ 63 + 1 ∧ m1.capacity = 2 ^ 63 :=
  ⟨⟨2 ^ 63, 2 ^ 63, some 0, ⟨[], [], 1, 2 ^ 63, 0, 0⟩⟩,
    ⟨2 ^ 63 + 1, 2 ^ 63, some 0, ⟨[], [], 1, 2 ^ 63 + 1, 0, 0⟩⟩,
    Members.newFill_unplanned (2 ^ 63) (by decide), rfl, rfl, rfl, by rfl, rfl, rfl⟩

/-- C3 (evaluation at the failing input): on a default-constructed vector,
whose `size()` is 0, `at(0)` does not raise the out-of-range condition; the
unsigned `m_size - 1` wraps, the check passes and `*(memory + 0)` is
dereferenced with `memory` null. -/
theorem at_on_empty_skips_range_check :
    (new (Heap.empty Nat)).size = 0 ∧
      (new (Heap.empty Nat)).at_ 0 = Access.ub UB.null_pointer ∧
      (new (Heap.empty Nat)).at_ 0 ≠ Access.threw Exn.out_of_range := by
  decide

/-- C4 (evaluation at the failing input): a vector holding 1, 2 with capacity 2;
`reserve(4)` in which the copy of element 1 throws.  The exception leaves the
call with `size()`, `capacity()` and `memory` as before, but the handler has
destroyed the original element 0: slot 0 of the vector's block no longer holds
a live object. -/
theorem reserve_copy_failure_destroys_original :
    ∃ v, (new { Heap.empty Nat with ctorPlan := [false, false, false, true] }).pushAll [1, 2]
        = .ok v ∧
      v.size = 2 ∧ v.capacity = 2 ∧ v.subscript 0 = .ref 1 ∧ v.subscript 1 = .ref 2 ∧
      ∃ v1, v.reserve 4 = .threw .ctor_failure v1 ∧
        v1.size = 2 ∧ v1.capacity = 2 ∧ v1.memory = v.memory ∧
        v1.subscript 0 = .ub .no_live_object ∧ v1.subscript 1 = .ref 2 := by
  refine ⟨_, rfl, ?_, ?_, ?_, ?_, _, rfl, ?_⟩ <;> decide

/-- C5 (evaluation at the failing input): `emplace_back(7)` on an empty vector
whose element constructor throws.  When the handler runs `m_size` is already
1, not 0, and `destroy(memory + m_size)` is applied to slot 1, which was never
constructed. -/
theorem emplace_back_failure_counts_element :
    (new { Heap.empty Nat with ctorPlan := [true] }).size = 0 ∧
    ∃ s, (new { Heap.empty Nat with ctorPlan := [true] }).emplace_back
        (.outside 7) = .ub .no_live_object s ∧ s.size = 1 := by
  exact ⟨rfl, _, rfl, rfl⟩

/-- C6 (evaluation at the failing input): a vector holding one element with
capacity 2.  `assign(3, 9)` releases the block in `clear()` and then `reserve`
copy-constructs from that released block; `assign(1, 9)` constructs into the
released block.  Neither call returns a vector of `count` copies of the value. -/
theorem assign_on_nonempty_uses_released_block :
    ∃ v, (new (Heap.empty Nat)).pushAll [1] = .ok v ∧ v.size = 1 ∧ v.capacity = 2 ∧
      (∃ s, v.assign 3 9 = .ub .released_block s) ∧
      (∃ s, v.assign 1 9 = .ub .released_block s) := by
  exact ⟨_, rfl, rfl, rfl, ⟨_, rfl⟩, ⟨_, rfl⟩⟩

/-- C7 (evaluation at the failing input): a vector holding 1, 2 with capacity 2.
`reserve(2)`, with `n == capacity()`, is not a no-op: it allocates a new block,
copy-constructs both elements into it, destroys the originals and moves
`memory` to the new block. -/
theorem reserve_equal_capacity_reallocates :
    ∃ v, (new (Heap.empty Nat)).pushAll [1, 2] = .ok v ∧ v.size = 2 ∧ v.capacity = 2 ∧
      ∃ v1, v.reserve 2 = .ok v1 ∧ v1.memory ≠ v.memory ∧
        v1.heap.blocks.length = v.heap.blocks.length + 1 ∧
        v1.heap.constructs = v.heap.constructs + 2 ∧
        v1.heap.destroys = v.heap.destroys + 2 := by
  refine ⟨_, rfl, ?_, ?_, _, rfl, ?_⟩ <;> decide

/-- Below the capacity, and for 0, `reserve` returns at once and changes nothing. -/
theorem reserve_below_capacity_noop (v : Vector T) (n : Nat)
    (hn : n = 0 ∨ n < v.capacity) : v.reserve n = .ok v := by
  have hguard : n ≤ 0 ∨ n < v.m_capacity := by
    unfold capacity at hn
    omega
  simp only [reserve, hguard, if_true]

/-- C8: on a well-formed vector holding `xs`, for `n > capacity()`, a call
`reserve(n)` that returns leaves `capacity() == n`, `size()` unchanged and
every `operator[](i)`, `i < size()`, referring to the same value as before; and
the call does return when the allocation succeeds, none of the `size()` copies
throws and the `n * sizeof(T)` bytes requested are fewer than `2 ^ 64`. -/
theorem reserve_grow_carries_elements (v : Vector T) (xs : List T) (n : Nat)
    (hrep : Rep v xs) (hn : v.capacity < n) (hmod : n < SIZE_MOD) :
    (∀ v1, v.reserve n = .ok v1 → v1.capacity = n ∧ v1.size = v.size ∧
      ∀ i, i < v.size → (∃ x, v.subscript i = .ref x) ∧ v1.subscript i = v.subscript i) ∧
    (v.heap.allocPlan.head? ≠ some true → true ∉ v.heap.ctorPlan.take v.size →
      0 < v.heap.elemSize → n * v.heap.elemSize < SIZE_MOD → ∃ v1, v.reserve n = .ok v1) := by
  have hsz : v.size = xs.length := hrep.1
  have hpos : 0 < n := by omega
  have hcap : v.m_capacity ≤ n := by unfold capacity at hn; omega
  constructor
  · intro v1 h1
    by_cases hfail : v.heap.allocPlan.head? = some true ∨
        true ∈ v.heap.ctorPlan.take xs.length ∨ v.heap.slotsFor n < xs.length
    · exact absurd h1 (reserve_not_ok v xs n hrep hpos hcap hfail v1)
    · obtain ⟨w, hw, hws, hwc, hwm, hwb, _⟩ := reserve_ok_room v xs n hrep hpos hcap
        (fun h => hfail (Or.inl h)) (fun h => hfail (Or.inr (Or.inl h)))
        (Nat.le_of_not_lt (fun h => hfail (Or.inr (Or.inr h))))
      rw [h1] at hw
      simp only [Outcome.ok.injEq] at hw
      subst hw
      refine ⟨hwc, hws, ?_⟩
      intro i hi
      rw [hsz] at hi
      rw [rep_subscript v xs hrep i hi, subscript_of_block v1 _ xs _ hwm hwb i hi]
      exact ⟨⟨_, rfl⟩, rfl⟩
  · intro halloc hctor hs hfit
    rw [hsz] at hctor
    obtain ⟨v1, h1, _⟩ := reserve_ok v xs n hrep hpos hcap hmod
      (slotsFor_fit v.heap n hs hfit) halloc hctor
    exact ⟨v1, h1⟩

/-- Witness for C8: the vector holding 1, 2, 3 in a block of 4 slots, grown to 6. -/
theorem reserve_grow_carries_elements_witness :
    ∃ v1, (⟨3, 4, some 0,
        ⟨[⟨[some 1, some 2, some 3, none], false⟩], [], [], 3, 0, 4⟩⟩ : Vector Nat).reserve 6
          = .ok v1 ∧
      v1.capacity = 6 ∧ v1.size = 3 := by
  have hthm := reserve_grow_carries_elements
    (⟨3, 4, some 0, ⟨[⟨[some 1, some 2, some 3, none], false⟩], [], [], 3, 0, 4⟩⟩ : Vector Nat)
    [1, 2, 3] 6 ⟨rfl, by decide, by decide, rfl⟩ (by decide) (by decide)
  obtain ⟨v1, h1⟩ := hthm.2 (by decide) (by decide) (by decide) (by decide)
  obtain ⟨hc, hs, _⟩ := hthm.1 v1 h1
  exact ⟨v1, h1, hc, hs⟩

/-- The call `reserve(2 ^ 62 + 1)` on a vector of two 4-byte elements: the
`(2 ^ 62 + 1) * 4` bytes requested wrap to 4, the block has one slot, and the
second copy is constructed outside it. -/
theorem reserve_wrapped_request_overruns_block :
    ∃ s, (⟨2, 2, some 0, ⟨[⟨[some 1, some 2], false⟩], [], [], 2, 0, 4⟩⟩ :
        Vector Nat).reserve (2 ^ 62 + 1) = .ub .out_of_bounds s := by
  exact ⟨_, rfl⟩

/-- C9: for `i < size()`, `at(i)` passes the range check and is the same access
as `operator[](i)`; on a well-formed vector holding `xs` both refer to `xs[i]`. -/
theorem at_in_range_eq_subscript (v : Vector T) (i : Nat) (hsize : v.size < SIZE_MOD)
    (hi : i < v.size) :
    v.at_ i = v.subscript i ∧ v.at_ i ≠ .threw .out_of_range ∧
      ∀ (xs : List T) (hx : i < xs.length), Rep v xs → v.at_ i = .ref xs[i] := by
  unfold size at hsize hi
  have hcheck : ¬ i > (v.m_size + SIZE_MOD - 1) % SIZE_MOD := by
    have h1 : v.m_size + SIZE_MOD - 1 = (v.m_size - 1) + SIZE_MOD := by omega
    rw [h1, Nat.add_mod_right, Nat.mod_eq_of_lt (by omega)]
    omega
  have heq : v.at_ i = v.subscript i := by
    simp only [at_, subscript, if_neg hcheck]
  refine ⟨heq, ?_, ?_⟩
  · rw [heq]
    unfold subscript deref
    split <;> simp
  · intro xs hx hrep
    rw [heq]
    exact rep_subscript v xs hrep i hx

/-- Witness for C9: index 1 of the vector holding 5, 6 in a block of 2 slots. -/
theorem at_in_range_eq_subscript_witness :
    (⟨2, 2, some 0, ⟨[⟨[some 5, some 6], false⟩], [], [], 2, 0, 4⟩⟩ : Vector Nat).at_ 1
      = .ref 6 := by
  exact (at_in_range_eq_subscript
    (⟨2, 2, some 0, ⟨[⟨[some 5, some 6], false⟩], [], [], 2, 0, 4⟩⟩ : Vector Nat) 1
    (by decide) (by decide)).2.2 [5, 6] (by decide) ⟨rfl, by decide, by decide, rfl⟩

/-- C10 (evaluation at the failing input): a vector holding one element with
capacity 2; `assign(3, 9)` in which the allocation fails.  `std::bad_alloc`
leaves the call with `size() == 1` and `capacity() == 2`, not 0 and 0, and with
`memory` still pointing to the block that `clear()` released. -/
theorem assign_alloc_failure_keeps_size_and_capacity :
    ∃ v, (new { Heap.empty Nat with allocPlan := [false, true] }).pushAll [1] = .ok v ∧
      v.size = 1 ∧ v.capacity = 2 ∧
      ∃ v1, v.assign 3 9 = .threw .bad_alloc v1 ∧ v1.size = 1 ∧ v1.capacity = 2 ∧
        v1.memory = v.memory ∧ v1.subscript 0 = .ub .released_block := by
  refine ⟨_, rfl, ?_, ?_, _, rfl, ?_⟩ <;> decide

/-! ## Capacity over a call -/

theorem reserve_capacity_ge (v : Vector T) (n : Nat) :
    v.m_capacity ≤ (v.reserve n).state.m_capacity := by
  rcases (reserve_frame v n).2 with ⟨hc, _⟩ | ⟨hle, hc, _⟩
  · omega
  · omega

theorem checkSize_capacity_ge (v : Vector T) :
    v.m_capacity ≤ v.checkSize.state.m_capacity := by
  unfold checkSize
  split
  · exact reserve_capacity_ge v _
  · exact Nat.le_refl _

theorem emplace_back_capacity (v : Vector T) (a : Arg T) :
    (v.emplace_back a).state.m_capacity = v.checkSize.state.m_capacity := by
  unfold emplace_back
  cases hcs : v.checkSize with
  | threw e v1 => rfl
  | ub u v1 => rfl
  | ok v1 =>
      simp only
      cases hf : a.fetch v1.heap v.memory with
      | error u => rfl
      | ok x =>
          simp only
          cases hk : v1.heap.construct v1.memory v1.m_size x with
          | ok h3 => rfl
          | ub u h3 => rfl
          | threw e h3 =>
              simp only
              cases hd : h3.destroy v1.memory ((v1.m_size + 1) % SIZE_MOD) <;> rfl

theorem assign_capacity_ge (v : Vector T) (count : Nat) (value : T) :
    v.m_capacity ≤ (v.assign count value).state.m_capacity := by
  unfold assign
  obtain ⟨C, hC⟩ : ∃ C, C = (if v.m_size > 0 then clear v else .ok v) := ⟨_, rfl⟩
  have hcC : C.state.m_capacity = v.m_capacity := by
    rw [hC]
    split
    · exact (clear_frame v).2.1
    · rfl
  rw [← hC]
  cases C with
  | threw e v1 => exact Nat.le_of_eq hcC.symm
  | ub u v1 => exact Nat.le_of_eq hcC.symm
  | ok v1 =>
      simp only [Outcome.state] at hcC
      simp only
      have hR := reserve_capacity_ge v1 count
      cases hr : v1.reserve count with
      | threw e v2 => rw [hr] at hR; exact hcC ▸ hR
      | ub u v2 => rw [hr] at hR; exact hcC ▸ hR
      | ok v2 =>
          rw [hr] at hR
          simp only [Outcome.state] at hR
          have hv2 : v.m_capacity ≤ v2.m_capacity := hcC ▸ hR
          simp only
          cases hF : fillLoop v2.memory value count 0 v2.heap with
          | done h3 => exact hv2
          | ub u h3 => exact hv2
          | threw k h3 =>
              simp only
              cases hD : destroyFirstLoop v2.memory k h3 <;> exact hv2

/-- C13: `capacity()` never decreases.  Whatever way a call of `reserve`,
`assign`, `push_back` or `emplace_back` ends, the capacity of the state it
leaves is at least the capacity before the call; and when the constructor of an
append throws after `checkSize` has grown the vector, the grown capacity is the
one the vector is left with. -/
theorem capacity_never_decreases (v : Vector T) (n count : Nat) (value : T) (a : Arg T) :
    v.capacity ≤ (v.reserve n).state.capacity ∧
    v.capacity ≤ (v.assign count value).state.capacity ∧
    v.capacity ≤ (v.push_back a).state.capacity ∧
    v.capacity ≤ (v.emplace_back a).state.capacity ∧
    (∀ v1 x e h3, v.checkSize = .ok v1 → a.fetch v1.heap v.memory = .ok x →
      v1.heap.construct v1.memory v1.m_size x = .threw e h3 →
      (v.emplace_back a).state.capacity = v1.capacity ∧ v.capacity ≤ v1.capacity) := by
  have he : v.m_capacity ≤ (v.emplace_back a).state.m_capacity := by
    rw [emplace_back_capacity]
    exact checkSize_capacity_ge v
  refine ⟨reserve_capacity_ge v n, assign_capacity_ge v count value, he, he, ?_⟩
  intro v1 x e h3 hcs _ _
  have h1 := emplace_back_capacity v a
  have h2 := checkSize_capacity_ge v
  rw [hcs] at h1 h2
  exact ⟨h1, h2⟩

/-- Witness for C13: `emplace_back(7)` on an empty vector whose constructor
throws; `checkSize` has grown the capacity to 2 and the vector keeps it. -/
theorem capacity_never_decreases_witness :
    ((new { Heap.empty Nat with ctorPlan := [true] }).emplace_back
      (.outside 7)).state.capacity = 2 :=
  ((capacity_never_decreases (new { Heap.empty Nat with ctorPlan := [true] }) 0 0 0
      (.outside 7)).2.2.2.2
    ⟨0, 2, some 0, ⟨[⟨[none, none], false⟩], [], [true], 0, 0, 4⟩⟩ 7 .ctor_failure
    ⟨[⟨[none, none], false⟩], [], [], 0, 0, 4⟩ rfl rfl rfl).1

/-- C14: when the allocator fails inside `reserve(n)`, or inside the growth
step of `push_back` / `emplace_back`, `std::bad_alloc` leaves the call and the
vector is as before: same `size()`, `capacity()` and `memory`, the same blocks
with the same contents and release flags, and no construction or destruction
has been performed. -/
theorem allocation_failure_is_atomic (v : Vector T) (n : Nat) (a : Arg T)
    (hfail : v.heap.allocPlan.head? = some true) :
    (¬(n ≤ 0 ∨ n < v.capacity) →
      ∃ v1, v.reserve n = .threw .bad_alloc v1 ∧
        v1.size = v.size ∧ v1.capacity = v.capacity ∧ v1.memory = v.memory ∧
        v1.heap.blocks = v.heap.blocks ∧ v1.heap.constructs = v.heap.constructs ∧
        v1.heap.destroys = v.heap.destroys) ∧
    (v.capacity ≤ v.size →
      ¬((if v.capacity = 0 then 2 else (v.capacity * 2) % SIZE_MOD) ≤ 0 ∨
        (if v.capacity = 0 then 2 else (v.capacity * 2) % SIZE_MOD) < v.capacity) →
      ∃ v1, v.emplace_back a = .threw .bad_alloc v1 ∧ v.push_back a = .threw .bad_alloc v1 ∧
        v1.size = v.size ∧ v1.capacity = v.capacity ∧ v1.memory = v.memory ∧
        v1.heap.blocks = v.heap.blocks ∧ v1.heap.constructs = v.heap.constructs ∧
        v1.heap.destroys = v.heap.destroys) := by
  have hres : ∀ m, ¬(m ≤ 0 ∨ m < v.m_capacity) →
      v.reserve m = .threw .bad_alloc
        { v with heap := { v.heap with allocPlan := v.heap.allocPlan.tail } } := by
    intro m hm
    unfold reserve
    rw [if_neg hm]
    simp only [Heap.allocate]
    rw [if_pos hfail]
    rfl
  constructor
  · intro hn
    exact ⟨_, hres n hn, rfl, rfl, rfl, rfl, rfl, rfl⟩
  · intro hfull hg
    have hcs : v.checkSize = .threw .bad_alloc
        { v with heap := { v.heap with allocPlan := v.heap.allocPlan.tail } } := by
      have hfull1 : v.m_size ≥ v.m_capacity := hfull
      unfold checkSize
      rw [if_pos hfull1]
      exact hres _ hg
    have he : v.emplace_back a = .threw .bad_alloc
        { v with heap := { v.heap with allocPlan := v.heap.allocPlan.tail } } := by
      unfold emplace_back
      rw [hcs]
    exact ⟨_, he, he, rfl, rfl, rfl, rfl, rfl, rfl⟩

/-- Witness for C14: a full vector holding 1, 2 whose next allocation fails,
under `reserve(4)` and under `push_back(3)`. -/
theorem allocation_failure_is_atomic_witness :
    (∃ v1, (⟨2, 2, some 0, ⟨[⟨[some 1, some 2], false⟩], [true], [], 2, 0, 4⟩⟩ :
        Vector Nat).reserve 4 = .threw .bad_alloc v1 ∧
      v1.heap.blocks = [⟨[some 1, some 2], false⟩]) ∧
    (∃ v1, (⟨2, 2, some 0, ⟨[⟨[some 1, some 2], false⟩], [true], [], 2, 0, 4⟩⟩ :
        Vector Nat).push_back (.outside 3) = .threw .bad_alloc v1 ∧
      v1.heap.blocks = [⟨[some 1, some 2], false⟩]) := by
  have hthm := allocation_failure_is_atomic
    (⟨2, 2, some 0, ⟨[⟨[some 1, some 2], false⟩], [true], [], 2, 0, 4⟩⟩ : Vector Nat) 4
    (.outside 3) rfl
  obtain ⟨v1, h1, _, _, _, hb1, _⟩ := hthm.1 (by decide)
  obtain ⟨v2, _, h2, _, _, _, hb2, _⟩ := hthm.2 (by decide) (by decide)
  exact ⟨⟨v1, h1, hb1⟩, ⟨v2, h2, hb2⟩⟩

/-- C16: growth policy of one append.  On a vector with `size() <= capacity()`
and `2 * capacity()` representable, a `push_back` / `emplace_back` that returns
leaves `capacity()` unchanged when `size() < capacity()` held before the call,
and otherwise leaves it at `max(2, 2 * capacity())`. -/
theorem append_growth_policy (v v1 : Vector T) (a : Arg T) (hle : v.size ≤ v.capacity)
    (hov : 2 * v.capacity < SIZE_MOD)
    (hok : v.push_back a = .ok v1 ∨ v.emplace_back a = .ok v1) :
    v1.capacity = if v.size < v.capacity then v.capacity else max 2 (2 * v.capacity) := by
  have hok1 : v.emplace_back a = .ok v1 := by
    rcases hok with h | h
    · exact h
    · exact h
  unfold size capacity at *
  have hcap := emplace_back_capacity v a
  rw [hok1] at hcap
  simp only [Outcome.state] at hcap
  rw [hcap]
  have hcsok : ∃ v0, v.checkSize = .ok v0 := by
    unfold emplace_back at hok1
    cases hcs : v.checkSize with
    | ok v0 => exact ⟨v0, rfl⟩
    | threw e v0 => simp [hcs] at hok1
    | ub u v0 => simp [hcs] at hok1
  obtain ⟨v0, hv0⟩ := hcsok
  rw [hv0]
  simp only [Outcome.state]
  unfold checkSize at hv0
  by_cases hlt : v.m_size < v.m_capacity
  · rw [if_neg (by omega)] at hv0
    cases hv0
    rw [if_pos hlt]
  · rw [if_pos (by omega)] at hv0
    rw [if_neg hlt]
    have hg : (if v.m_capacity = 0 then 2 else (v.m_capacity * 2) % SIZE_MOD) =
        max 2 (2 * v.m_capacity) := by
      split
      · omega
      · rw [Nat.mod_eq_of_lt (by omega)]
        omega
    rw [hg] at hv0
    have hf := (reserve_frame v (max 2 (2 * v.m_capacity))).2
    rw [hv0] at hf
    simp only [Outcome.state] at hf
    rcases hf with ⟨_, _, _, hguard⟩ | ⟨_, hc, _⟩
    · have := hguard ⟨v0, rfl⟩
      omega
    · exact hc

/-- Witness for C16: a full vector of capacity 2 grows to capacity 4. -/
theorem append_growth_policy_witness :
    ∃ v1, (⟨2, 2, some 0, ⟨[⟨[some 1, some 2], false⟩], [], [], 2, 0, 4⟩⟩ :
        Vector Nat).push_back (.outside 3) = .ok v1 ∧ v1.capacity = 4 := by
  refine ⟨_, rfl, ?_⟩
  exact append_growth_policy
    (⟨2, 2, some 0, ⟨[⟨[some 1, some 2], false⟩], [], [], 2, 0, 4⟩⟩ : Vector Nat) _
    (.outside 3) (by decide) (by decide) (Or.inl rfl)

/-- C11 (evaluation at the failing input): a vector holding 1, 2 with capacity 2.
In `assign(4, 9)`, `clear()` destroys both elements once and releases the
block, and `reserve` then copy-constructs out of that released block, to which
`memory` still points; in `assign(1, 9)` no new block is allocated and the
element is constructed into the released block. -/
theorem assign_on_nonempty_touches_released_block :
    ∃ v, (new (Heap.empty Nat)).pushAll [1, 2] = .ok v ∧ v.size = 2 ∧ v.capacity = 2 ∧
      (∃ s, v.assign 4 9 = .ub .released_block s ∧
        s.heap.destroys = v.heap.destroys + 2 ∧ s.memory = v.memory ∧
        s.heap.blocks[0]? = some ⟨[none, none], true⟩ ∧
        s.heap.read s.memory 0 = .error .released_block) ∧
      (∃ s, v.assign 1 9 = .ub .released_block s ∧ s.memory = v.memory ∧
        s.heap.blocks = [⟨[none, none], true⟩]) := by
  exact ⟨_, rfl, rfl, rfl, ⟨_, rfl, rfl, rfl, rfl, rfl⟩, ⟨_, rfl, rfl, rfl⟩⟩

/-- C18 (evaluation at the failing input): `assign(3, 9)` on an empty vector in
which the construction of element 2 throws.  The handler calls `destroy(memory)`
twice: slot 0 is destroyed once and the second call finds no live object there,
while slot 1, which was constructed, is never destroyed. -/
theorem assign_failure_destroys_first_slot_only :
    ∃ s, (new { Heap.empty Nat with ctorPlan := [false, false, true] }).assign 3 9
        = .ub .no_live_object s ∧
      s.heap.constructs = 2 ∧ s.heap.destroys = 1 ∧
      s.heap.blocks = [⟨[none, some 9, none], false⟩] := by
  refine ⟨_, rfl, ?_⟩
  decide

/-- C19 (evaluation at the failing input): `Vector(5)` followed by `reserve(10)`.
With `size() == 0` the call skips `clear()`, so the 5-slot block is never
released: after the call two blocks are allocated and not released. -/
theorem reserve_on_empty_storage_leaks_block :
    ∃ v, newSized (Heap.empty Nat) 5 = .ok v ∧ v.size = 0 ∧ v.capacity = 5 ∧
      v.memory = some 0 ∧ v.heap.unreleased = 1 ∧
      ∃ v1, v.reserve 10 = .ok v1 ∧ v1.capacity = 10 ∧ v1.memory = some 1 ∧
        v1.heap.blocks[0]? = some ⟨[none, none, none, none, none], false⟩ ∧
        v1.heap.unreleased = 2 := by
  refine ⟨_, rfl, ?_, ?_, ?_, ?_, _, rfl, ?_⟩ <;> decide

/-! ## `assign` on an empty well-formed vector -/

theorem fillLoop_spec (b : Nat) (value : T) (cnt : Nat) :
    ∀ (n c : Nat) (h : Heap T), c + n ≤ cnt →
      h.blocks[b]? =
        some ⟨(List.replicate c value).map some ++ List.replicate (cnt - c) none, false⟩ →
      (true ∉ h.ctorPlan.take n →
        fillLoop (some b) value n c h =
          .done { h with
                  blocks := h.blocks.set b
                    ⟨(List.replicate (c + n) value).map some ++
                      List.replicate (cnt - (c + n)) none, false⟩,
                  ctorPlan := h.ctorPlan.drop n,
                  constructs := h.constructs + n }) ∧
      (true ∈ h.ctorPlan.take n →
        ∃ k h1, fillLoop (some b) value n c h = .threw k h1) := by
  intro n
  induction n with
  | zero =>
      intro c h hc hb
      constructor
      · intro _
        simp only [fillLoop, Nat.add_zero, List.drop_zero, set_same _ _ _ hb]
      · intro hmem
        simp at hmem
  | succ n ih =>
      intro c h hc hb
      have hblt := lt_of_getElem? _ _ _ hb
      have hcons := construct_eq h b c _ value hb rfl (by simp; omega)
      by_cases hp : h.ctorPlan.head? = some true
      · constructor
        · intro hno
          exfalso
          apply hno
          cases hpl : h.ctorPlan with
          | nil => simp [hpl] at hp
          | cons p rest =>
              simp [hpl] at hp
              simp [hp]
        · intro _
          simp only [fillLoop, hcons, hp, if_true]
          exact ⟨_, _, rfl⟩
      · have hplan := plan_take_succ h.ctorPlan n hp
        have hset : (List.map some (List.replicate c value) ++
            List.replicate (cnt - c) none).set c (some value) =
            List.map some (List.replicate (c + 1) value) ++
              List.replicate (cnt - (c + 1)) none := by
          have h1 : cnt - c = (cnt - (c + 1)) + 1 := by omega
          have h2 : (List.map some (List.replicate c value)).length = c := by simp
          have h3 := slots_set_raw (List.map some (List.replicate c value)) (some value)
            (cnt - (c + 1))
          rw [h2, ← h1] at h3
          rw [h3, List.replicate_succ', List.map_append]
          rfl
        have hih := ih (c + 1)
          { h with ctorPlan := h.ctorPlan.tail,
                   blocks := h.blocks.set b
                     ⟨(List.map some (List.replicate c value) ++
                        List.replicate (cnt - c) none).set c (some value), false⟩,
                   constructs := h.constructs + 1 }
          (by omega)
          (by simp only; rw [List.getElem?_set_self hblt, hset])
        simp only [fillLoop, hcons, hp, if_false]
        constructor
        · intro hno
          rw [hih.1 (by simpa [hplan.1] using hno)]
          simp only [List.set_set, hplan.2, Nat.add_assoc, Nat.add_comm 1 n]
        · intro hyes
          exact hih.2 (by simpa [hplan.1] using hyes)

theorem fill_after_reserve (v1 : Vector T) (count : Nat) (value : T) (hrep1 : Rep v1 [])
    (hcnt : count ≤ v1.m_capacity) :
    (true ∉ v1.heap.ctorPlan.take count →
      ∃ h3, fillLoop v1.memory value count 0 v1.heap = .done h3 ∧
        Rep ({ v1 with heap := h3, m_size := count } : Vector T) (List.replicate count value)) ∧
    (true ∈ v1.heap.ctorPlan.take count →
      ∃ k h3, fillLoop v1.memory value count 0 v1.heap = .threw k h3) := by
  by_cases hz : count = 0
  · subst hz
    constructor
    · intro _
      refine ⟨v1.heap, rfl, ?_⟩
      obtain ⟨_, hle, hlt, hmem⟩ := hrep1
      exact ⟨rfl, hle, hlt, hmem⟩
    · intro hmem
      simp at hmem
  · cases hm : v1.memory with
    | none =>
        exfalso
        have := (rep_memory_none v1 [] hrep1 hm).2.2
        omega
    | some b =>
        obtain ⟨_, _, hlt, hmem⟩ := hrep1
        rw [hm] at hmem
        simp only at hmem
        have hblt := lt_of_getElem? _ _ _ hmem
        have hfl := fillLoop_spec b value v1.m_capacity count 0 v1.heap (by omega)
          (by simpa using hmem)
        constructor
        · intro hp
          refine ⟨_, hfl.1 hp, ?_⟩
          refine ⟨by simp, by simpa using hcnt, hlt, ?_⟩
          simp only [hm]
          rw [List.getElem?_set_self hblt]
          simp
        · intro hp
          exact hfl.2 hp

theorem reserve_room (v v1 : Vector T) (count : Nat) (hr : v.reserve count = .ok v1) :
    count ≤ v1.m_capacity := by
  have hf := (reserve_frame v count).2
  rw [hr] at hf
  simp only [Outcome.state] at hf
  rcases hf with ⟨hc, _, _, hg⟩ | ⟨_, hc, _⟩
  · have := hg ⟨v1, rfl⟩
    omega
  · omega

/-- A fill loop that ran to its end on the block a growing `reserve` handed out
shows that the block has the size asked for. -/
theorem fill_fit (v v1 : Vector T) (count : Nat) (value : T) (h3 : Heap T)
    (hg : ¬(count ≤ 0 ∨ count < v.m_capacity)) (hr : v.reserve count = .ok v1)
    (hF : fillLoop v1.memory value count 0 v1.heap = .done h3) :
    v.heap.slotsFor count = count := by
  obtain ⟨b, k, hb, hk, hle⟩ := fillLoop_room v1.memory value count 0 v1.heap h3 (by omega) hF
  have hf := (reserve_frame v count).2
  rw [hr] at hf
  simp only [Outcome.state] at hf
  rcases hf with ⟨_, _, _, hgd⟩ | ⟨_, _, hm, hs⟩
  · have := hgd ⟨v1, rfl⟩
    omega
  · rw [hm] at hb
    cases hb
    have hlen : v.heap.blocks.length = (shape v.heap).length := by simp [shape]
    rw [hs, hlen, List.getElem?_append_right (Nat.le_refl _)] at hk
    simp only [Nat.sub_self, List.getElem?_cons_zero, Option.some.injEq] at hk
    rcases slotsFor_cases v.heap count with hfit | hwrap
    · exact hfit
    · omega

theorem assign_empty_rep (v v2 : Vector T) (count : Nat) (value : T) (hrep : Rep v [])
    (hc : count < SIZE_MOD) (hres : v.assign count value = .ok v2) :
    Rep v2 (List.replicate count value) := by
  have hsz : v.m_size = 0 := hrep.1
  unfold assign at hres
  simp only [hsz, gt_iff_lt, Nat.lt_irrefl, if_false] at hres
  cases hr : v.reserve count with
  | threw e v1 => simp [hr] at hres
  | ub u v1 => simp [hr] at hres
  | ok v1 =>
      simp only [hr] at hres
      cases hF : fillLoop v1.memory value count 0 v1.heap with
      | ub u h3 => simp [hF] at hres
      | threw k h3 =>
          rw [hF] at hres
          simp only at hres
          cases hd : destroyFirstLoop v1.memory k h3 <;> simp [hd, withHeap] at hres
      | done h3 =>
          have hrep1 := (reserve_rep v v1 [] count hrep hc
            (fun hg => fill_fit v v1 count value h3 hg hr hF) hr).1
          have hfill := fill_after_reserve v1 count value hrep1 (reserve_room v v1 count hr)
          by_cases hp : true ∈ v1.heap.ctorPlan.take count
          · obtain ⟨k, h4, hk⟩ := hfill.2 hp
            rw [hk] at hF
            cases hF
          · obtain ⟨h4, hk, hrep3⟩ := hfill.1 hp
            rw [hk] at hF
            cases hF
            rw [hk] at hres
            simp only [Outcome.ok.injEq] at hres
            rw [← hres]
            exact hrep3

theorem assign_empty_total (v : Vector T) (count : Nat) (value : T) (hrep : Rep v [])
    (hc : count < SIZE_MOD) (hs : 0 < v.heap.elemSize)
    (hfit : count * v.heap.elemSize < SIZE_MOD)
    (halloc : v.heap.allocPlan.head? ≠ some true)
    (hctor : true ∉ v.heap.ctorPlan.take count) :
    ∃ v2, v.assign count value = .ok v2 := by
  have hsz : v.m_size = 0 := hrep.1
  have hfit1 := slotsFor_fit v.heap count hs hfit
  have hres : ∃ v1, v.reserve count = .ok v1 ∧ v1.heap.ctorPlan = v.heap.ctorPlan := by
    by_cases hguard : count ≤ 0 ∨ count < v.m_capacity
    · exact ⟨v, by simp only [reserve, hguard, if_true], rfl⟩
    · obtain ⟨v1, h1, _, _, _, _, hcp, _⟩ := reserve_ok v [] count hrep (by omega) (by omega)
        hc hfit1 halloc (by simp)
      exact ⟨v1, h1, by simpa using hcp⟩
  obtain ⟨v1, hr, hcp⟩ := hres
  have hrep1 := (reserve_rep v v1 [] count hrep hc (fun _ => hfit1) hr).1
  have hfill := fill_after_reserve v1 count value hrep1 (reserve_room v v1 count hr)
  obtain ⟨h3, hk, _⟩ := hfill.1 (by rw [hcp]; exact hctor)
  refine ⟨{ v1 with heap := h3, m_size := count }, ?_⟩
  unfold assign
  simp only [hsz, gt_iff_lt, Nat.lt_irrefl, if_false, hr, hk]

/-- C12: the fill constructor `Vector(count, value)`, when it returns, yields a
vector with `size() == count` and `operator[](i) == value` for every
`i < count`; and it does return when its allocation and its `count`
constructions do not fail and the `count * sizeof(T)` bytes requested are fewer
than `2 ^ 64`. -/
theorem fill_constructor_contents (h : Heap T) (count : Nat) (value : T)
    (hc : count < SIZE_MOD) :
    (∀ v, newFill h count value = .ok v →
      v.size = count ∧ ∀ i, i < count → v.subscript i = .ref value) ∧
    (h.allocPlan.head? ≠ some true → true ∉ h.ctorPlan.take count →
      0 < h.elemSize → count * h.elemSize < SIZE_MOD →
      ∃ v, newFill h count value = .ok v) := by
  constructor
  · intro v hv
    have hrep := assign_empty_rep (new h) v count value (rep_new h) hc hv
    refine ⟨by simpa using hrep.1, ?_⟩
    intro i hi
    have := rep_subscript v _ hrep i (by simpa using hi)
    simpa using this
  · intro halloc hctor hs hfit
    exact assign_empty_total (new h) count value (rep_new h) hc hs hfit halloc hctor

/-- Witness for C12: `Vector(5, 7)`. -/
theorem fill_constructor_contents_witness :
    ∃ v, newFill (Heap.empty Nat) 5 7 = .ok v ∧ v.size = 5 ∧
      v.subscript 0 = .ref 7 ∧ v.subscript 4 = .ref 7 := by
  have hthm := fill_constructor_contents (Heap.empty Nat) 5 7 (by decide)
  obtain ⟨v, hv⟩ := hthm.2 (by decide) (by decide) (by decide) (by decide)
  obtain ⟨hsz, hidx⟩ := hthm.1 v hv
  exact ⟨v, hv, hsz, hidx 0 (by decide), hidx 4 (by decide)⟩

/-- The constructor call `Vector(2 ^ 62 + 1, 7)` for a 4-byte element type: the
`(2 ^ 62 + 1) * 4` bytes requested wrap to 4, the block has one slot, and the
second element is constructed outside it. -/
theorem fill_constructor_wrapped_request_overruns_block :
    ∃ s, newFill (Heap.empty Nat) (2 ^ 62 + 1) 7 = .ub .out_of_bounds s ∧
      s.heap.blocks = [⟨[some 7], false⟩] := by
  exact ⟨_, rfl, rfl⟩

/-! ## Counting constructions, destructions and unreleased blocks -/

theorem emplace_back_counts (v v2 : Vector T) (xs : List T) (a : Arg T) (hrep : Rep v xs)
    (hres : v.emplace_back a = .ok v2) :
    (xs.length < v.m_capacity ∧ v2.m_capacity = v.m_capacity ∧
      v2.heap.constructs = v.heap.constructs + 1 ∧ v2.heap.destroys = v.heap.destroys ∧
      v2.heap.unreleased = v.heap.unreleased ∧ v2.memory = v.memory) ∨
    (xs.length = v.m_capacity ∧
      v2.m_capacity = (if v.m_capacity = 0 then 2 else 2 * v.m_capacity) ∧
      v2.heap.constructs = v.heap.constructs + xs.length + 1 ∧
      v2.heap.destroys = v.heap.destroys + xs.length ∧
      v2.heap.unreleased = v.heap.unreleased + (if xs.length = 0 then 1 else 0) ∧
      ∃ b, v2.memory = some b) := by
  obtain ⟨v1, x, h3, hcs, _, hk, hv2⟩ := emplace_back_ok_inv v v2 a hres
  have hrep1 := checkSize_rep_of_append v v1 v2 xs a hrep hres hcs
  obtain ⟨hroom, _, hk3, hd3, hu3, _⟩ := construct_back v1 xs x h3 hrep1 hk
  have hc2 : v2.m_capacity = v1.m_capacity := by rw [hv2]
  have hm2 : v2.memory = v1.memory := by rw [hv2]
  have hk2 : v2.heap.constructs = v1.heap.constructs + 1 := by rw [hv2]; exact hk3
  have hd2 : v2.heap.destroys = v1.heap.destroys := by rw [hv2]; exact hd3
  have hu2 : v2.heap.unreleased = v1.heap.unreleased := by rw [hv2]; exact hu3
  have hsize := hrep.1
  have hle := hrep.2.1
  have hltM := hrep.2.2.1
  have hM : SIZE_MOD = 18446744073709551616 := by norm_num [SIZE_MOD]
  have hcs0 := hcs
  unfold checkSize at hcs
  by_cases hge : v.m_size ≥ v.m_capacity
  · rw [if_pos hge] at hcs
    right
    have hlen : xs.length = v.m_capacity := by omega
    obtain ⟨g, hg⟩ : ∃ g, g = (if v.m_capacity = 0 then 2 else (v.m_capacity * 2) % SIZE_MOD) :=
      ⟨_, rfl⟩
    have hfit0 := append_fit v v2 a (by omega) hres hge
    rw [← hg] at hcs hfit0
    have hgM : g < SIZE_MOD := by rw [hg]; exact growth_lt_mod _
    by_cases hguard : g ≤ 0 ∨ g < v.m_capacity
    · exfalso
      simp only [reserve, hguard, if_true, Outcome.ok.injEq] at hcs
      subst hcs
      omega
    · have hfit := hfit0 hguard
      by_cases hfail : v.heap.allocPlan.head? = some true ∨
          true ∈ v.heap.ctorPlan.take xs.length
      · have hfail3 : v.heap.allocPlan.head? = some true ∨
            true ∈ v.heap.ctorPlan.take xs.length ∨ v.heap.slotsFor g < xs.length := by
          rcases hfail with h | h
          · exact Or.inl h
          · exact Or.inr (Or.inl h)
        exact absurd hcs (reserve_not_ok v xs g hrep (by omega) (by omega) hfail3 v1)
      · obtain ⟨w, hw, hwk, hwd, hwu, _⟩ := reserve_ok_counts v xs g hrep (by omega)
          (by omega) hfit (fun h => hfail (Or.inl h)) (fun h => hfail (Or.inr h))
        obtain ⟨w1, hw1, _, hwcap, hwmem, _⟩ := reserve_ok v xs g hrep (by omega) (by omega)
          hgM hfit (fun h => hfail (Or.inl h)) (fun h => hfail (Or.inr h))
        rw [hcs] at hw hw1
        simp only [Outcome.ok.injEq] at hw hw1
        subst hw
        subst hw1
        have hgval : g = (if v.m_capacity = 0 then 2 else 2 * v.m_capacity) := by
          rw [hg]
          split
          · rfl
          · rw [hg] at hwcap
            rename_i hne
            rw [if_neg hne] at hwcap
            rw [hM] at hwcap hltM ⊢
            omega
        refine ⟨hlen, by rw [hc2, hwcap, hgval], by omega, by omega, by omega, ?_⟩
        exact ⟨_, hm2.trans hwmem⟩
  · rw [if_neg hge] at hcs
    simp only [Outcome.ok.injEq] at hcs
    subst hcs
    left
    exact ⟨by omega, hc2, hk2, hd2, hu2, hm2⟩

/-! ## A run of appends from the empty vector -/

theorem pushRun_new (h : Heap T) : PushRun h (new h) 0 := by
  constructor
  · intro _
    exact ⟨rfl, rfl, rfl, rfl, rfl⟩
  · intro hpos
    omega

theorem pushRun_step (h0 : Heap T) (v v2 : Vector T) (xs : List T) (a : Arg T)
    (hrep : Rep v xs) (hrun : PushRun h0 v xs.length) (hres : v.emplace_back a = .ok v2) :
    PushRun h0 v2 (xs.length + 1) := by
  have hcounts := emplace_back_counts v v2 xs a hrep hres
  constructor
  · intro h
    omega
  · intro _
    by_cases hz : xs.length = 0
    · obtain ⟨hcap, hmem, hk, hd, hu⟩ := hrun.1 hz
      rcases hcounts with ⟨hlt, _⟩ | ⟨_, hc2, hk2, hd2, hu2, hm2⟩
      · omega
      · rw [if_pos hcap] at hc2
        rw [if_pos hz] at hu2
        exact ⟨1, Nat.le_refl _, by rw [hc2]; rfl, Or.inl rfl, by norm_num; omega,
          by norm_num; omega, by omega, hm2⟩
    · obtain ⟨k, hk1, hcap, hsmall, hk, hd, hu, hm⟩ := hrun.2 (by omega)
      obtain ⟨p, hp⟩ : ∃ p, p = 2 ^ k := ⟨_, rfl⟩
      have hp2 : 2 ^ (k + 1) = 2 * p := by rw [hp, pow_succ]; ring
      rw [← hp] at hcap hsmall hk hd
      have hle := hrep.2.1
      rcases hcounts with ⟨hlt, hc2, hk2, hd2, hu2, hm2⟩ | ⟨hlen, hc2, hk2, hd2, hu2, hm2⟩
      · refine ⟨k, hk1, by rw [hc2, hcap, hp], ?_, ?_, ?_, by omega, by rw [hm2]; exact hm⟩
        · rcases hsmall with h | h
          · exact Or.inl h
          · right
            rw [← hp]
            omega
        · rw [← hp]
          omega
        · rw [← hp]
          omega
      · have hcne : ¬ v.m_capacity = 0 := by omega
        rw [if_neg hcne] at hc2
        rw [if_neg hz] at hu2
        refine ⟨k + 1, by omega, by rw [hc2, hp2, hcap], ?_, ?_, ?_, by omega, hm2⟩
        · right
          rw [hp2]
          omega
        · rw [hp2]
          omega
        · rw [hp2]
          omega

theorem pushAll_run (h0 : Heap T) (vs : List T) :
    ∀ (v v2 : Vector T) (xs : List T), Rep v xs → PushRun h0 v xs.length →
      v.pushAll vs = .ok v2 → PushRun h0 v2 (xs.length + vs.length) := by
  induction vs with
  | nil =>
      intro v v2 xs _ hrun hres
      simp only [pushAll, Outcome.ok.injEq] at hres
      subst hres
      simpa using hrun
  | cons x vs ih =>
      intro v v2 xs hrep hrun hres
      simp only [pushAll, push_back] at hres
      cases he : v.emplace_back (.outside x) with
      | threw e v1 => simp [he] at hres
      | ub u v1 => simp [he] at hres
      | ok v1 =>
          simp only [he] at hres
          have hrun1 := pushRun_step h0 v v1 xs (.outside x) hrep hrun he
          have := ih v1 v2 (xs ++ [x]) (emplace_back_outside_rep v v1 xs x hrep he)
            (by simpa using hrun1) hres
          simpa [Nat.add_assoc, Nat.add_comm 1] using this

theorem pushAll_from_new (h : Heap T) (vs : List T) (v : Vector T)
    (hv : (new h).pushAll vs = .ok v) : Rep v vs ∧ PushRun h v vs.length := by
  constructor
  · simpa using pushAll_rep vs (new h) v [] (rep_new h) hv
  · simpa using pushAll_run h vs (new h) v [] (rep_new h) (pushRun_new h) hv

/-- C15: for a vector populated from `Vector()` by successful `push_back` calls,
the destructor returns (no slot is destroyed twice and no block released
twice), it destroys exactly `size()` objects and leaves every slot of the
vector's block without a live object and the block released; over the whole
lifetime the constructions equal the destructions, and no block allocated by
the vector stays unreleased. -/
theorem destructor_balances_lifetime (h : Heap T) (vs : List T) (v : Vector T)
    (hv : (new h).pushAll vs = .ok v) :
    ∃ v1, v.destructor = .ok v1 ∧
      v1.heap.destroys = v.heap.destroys + v.size ∧
      v1.heap.constructs + h.destroys = v1.heap.destroys + h.constructs ∧
      v1.heap.unreleased = h.unreleased ∧
      ∀ b, v.memory = some b →
        v.heap.blocks[b]? = some ⟨vs.map some ++ List.replicate (v.capacity - v.size) none,
          false⟩ ∧
        v1.heap.blocks[b]? = some ⟨List.replicate v.capacity none, true⟩ := by
  obtain ⟨hrep, hrun⟩ := pushAll_from_new h vs v hv
  obtain ⟨hsize, hle, hlt, hmem⟩ := hrep
  unfold destructor clear size capacity
  cases hm : v.memory with
  | none =>
      rw [hm] at hmem
      simp only at hmem
      have hz : vs.length = 0 := by omega
      obtain ⟨_, _, hk, hd, hu⟩ := hrun.1 hz
      have hs0 : v.m_size = 0 := by omega
      rw [hs0]
      refine ⟨v, rfl, rfl, by omega, hu, ?_⟩
      intro b hb
      cases hb
  | some b =>
      rw [hm] at hmem
      simp only at hmem
      have hblt := lt_of_getElem? _ _ _ hmem
      have hdl := destroyLoop_spec b (List.replicate (v.m_capacity - vs.length) none) vs 0
        v.heap (by simpa using hmem)
      have hpos : 0 < vs.length := by
        rcases Nat.eq_zero_or_pos vs.length with hz | hp
        · have := (hrun.1 hz).2.1
          rw [hm] at this
          cases this
        · exact hp
      obtain ⟨k, _, _, _, hk, hd, hu, _⟩ := hrun.2 hpos
      obtain ⟨p, hp⟩ : ∃ p, p = 2 ^ k := ⟨_, rfl⟩
      rw [← hp] at hk hd
      rw [hsize, hdl]
      simp only [withHeap, Heap.deallocate, List.getElem?_set_self hblt, Bool.false_eq_true,
        if_false, List.set_set]
      refine ⟨_, rfl, rfl, by simp only; omega, ?_, ?_⟩
      · simp only [Heap.unreleased] at hu ⊢
        have := countP_set_release (fun blk : Block T => !blk.freed) v.heap.blocks b _
          ⟨List.replicate (0 + vs.length) none ++
            List.replicate (v.m_capacity - vs.length) none, true⟩ hmem rfl rfl
        omega
      · intro b1 hb1
        cases hb1
        refine ⟨hmem, ?_⟩
        rw [List.getElem?_set_self hblt]
        simp only [List.append_replicate_replicate]
        have : 0 + vs.length + (v.m_capacity - vs.length) = v.m_capacity := by omega
        rw [this]

/-- Witness for C15: three appends, then the destructor; five constructions
(three appends and two copies) and five destructions. -/
theorem destructor_balances_lifetime_witness :
    ∃ v v1, (new (Heap.empty Nat)).pushAll [1, 2, 3] = .ok v ∧ v.destructor = .ok v1 ∧
      v1.heap.destroys = v.heap.destroys + 3 ∧ v1.heap.unreleased = 0 := by
  obtain ⟨v1, h1, h2, _, h3, _⟩ := destructor_balances_lifetime (Heap.empty Nat) [1, 2, 3]
    ⟨3, 4, some 1,
      ⟨[⟨[none, none], true⟩, ⟨[some 1, some 2, some 3, none], false⟩], [], [], 5, 2, 4⟩⟩ rfl
  exact ⟨_, v1, rfl, h1, h2, h3⟩

/-- C17: after `N >= 1` successful `push_back` calls on an empty vector,
`size() == N` and `capacity()` is the least power of two that is at least
`max(2, N)`. -/
theorem push_back_capacity_least_power_of_two (h : Heap T) (vs : List T) (v : Vector T)
    (hne : vs ≠ []) (hv : (new h).pushAll vs = .ok v) :
    v.size = vs.length ∧ (∃ k, v.capacity = 2 ^ k) ∧ max 2 vs.length ≤ v.capacity ∧
      ∀ j, max 2 vs.length ≤ 2 ^ j → v.capacity ≤ 2 ^ j := by
  obtain ⟨hrep, hrun⟩ := pushAll_from_new h vs v hv
  have hpos : 0 < vs.length := List.length_pos.mpr hne
  obtain ⟨k, hk1, hcap, hsmall, _⟩ := hrun.2 hpos
  have h2 : 2 ≤ 2 ^ k := by
    calc 2 = 2 ^ 1 := rfl
      _ ≤ 2 ^ k := Nat.pow_le_pow_right (by decide) hk1
  have hle := hrep.2.1
  unfold size capacity
  refine ⟨hrep.1, ⟨k, hcap⟩, ?_, ?_⟩
  · rw [hcap]
    rw [hcap] at hle
    exact max_le h2 hle
  · intro j hj
    rw [hcap]
    have hj2 : 2 ≤ 2 ^ j := le_trans (le_max_left _ _) hj
    have hjN : vs.length ≤ 2 ^ j := le_trans (le_max_right _ _) hj
    rcases hsmall with hk | hk
    · rw [hk]
      exact hj2
    · rcases Nat.lt_or_ge j k with hlt | hge
      · exfalso
        have h3 : 2 ^ (j + 1) ≤ 2 ^ k := Nat.pow_le_pow_right (by decide) hlt
        have h4 : 2 ^ (j + 1) = 2 * 2 ^ j := by rw [pow_succ]; ring
        omega
      · exact Nat.pow_le_pow_right (by decide) hge

/-- Witness for C17: five appends give capacity 8. -/
theorem push_back_capacity_least_power_of_two_witness :
    ∃ v, (new (Heap.empty Nat)).pushAll [1, 2, 3, 4, 5] = .ok v ∧ v.size = 5 ∧
      v.capacity = 8 ∧ max 2 5 ≤ v.capacity := by
  have hthm := push_back_capacity_least_power_of_two (Heap.empty Nat) [1, 2, 3, 4, 5]
    ⟨5, 8, some 2,
      ⟨[⟨[none, none], true⟩, ⟨[none, none, none, none], true⟩,
        ⟨[some 1, some 2, some 3, some 4, some 5, none, none, none], false⟩], [], [], 11, 6, 4⟩⟩
    (by decide) rfl
  exact ⟨_, rfl, hthm.1, rfl, hthm.2.2.1⟩

/-- C20: in a run of `M` successful `push_back` calls from an empty vector, each
call makes one construction of its own and every other construction is a copy
made by the copy loop of `reserve`; each copy is followed by the destruction of
its original.  The number of copies is 0 for `M = 0` and below `2 * M` for
`M >= 1`. -/
theorem growth_copies_linear (h : Heap T) (vs : List T) (v : Vector T)
    (hv : (new h).pushAll vs = .ok v) :
    ∃ copies, v.heap.constructs = h.constructs + vs.length + copies ∧
      v.heap.destroys = h.destroys + copies ∧
      (vs.length = 0 → copies = 0) ∧ (1 ≤ vs.length → copies < 2 * vs.length) := by
  obtain ⟨_, hrun⟩ := pushAll_from_new h vs v hv
  rcases Nat.eq_zero_or_pos vs.length with hz | hpos
  · obtain ⟨_, _, hk, hd, _⟩ := hrun.1 hz
    exact ⟨0, by omega, by omega, fun _ => rfl, fun h1 => by omega⟩
  · obtain ⟨k, hk1, _, hsmall, hk, hd, _⟩ := hrun.2 hpos
    have h2 : 2 ≤ 2 ^ k := by
      calc 2 = 2 ^ 1 := rfl
        _ ≤ 2 ^ k := Nat.pow_le_pow_right (by decide) hk1
    obtain ⟨p, hp⟩ : ∃ p, p = 2 ^ k := ⟨_, rfl⟩
    rw [← hp] at hk hd h2 hsmall
    refine ⟨p - 2, by omega, by omega, fun h0 => by omega, fun _ => ?_⟩
    rcases hsmall with hk1e | hlt
    · subst hk1e
      have : p = 2 := by rw [hp]; rfl
      omega
    · omega

/-- Witness for C20: five appends make 2 + 4 = 6 copies, fewer than 10. -/
theorem growth_copies_linear_witness :
    ∃ v copies, (new (Heap.empty Nat)).pushAll [1, 2, 3, 4, 5] = .ok v ∧
      v.heap.constructs = 5 + copies ∧ copies < 10 := by
  obtain ⟨copies, h1, _, _, h2⟩ := growth_copies_linear (Heap.empty Nat) [1, 2, 3, 4, 5]
    ⟨5, 8, some 2,
      ⟨[⟨[none, none], true⟩, ⟨[none, none, none, none], true⟩,
        ⟨[some 1, some 2, some 3, some 4, some 5, none, none, none], false⟩], [], [], 11, 6, 4⟩⟩
    rfl
  exact ⟨_, copies, rfl, by simpa [Heap.empty] using h1, h2 (by decide)⟩

end Vector

end tt
